import Mathlib

/-!
Verification of the chunked text-to-speech pipeline in `text_to_audio.py`.

Texts are modelled as `List Char`, file contents as `List Nat` (bytes).
The external world (Docker, the piper synthesis subprocess, the ffmpeg
container) is abstracted into an environment record, and the filesystem
into an association list from structured paths to file data, so that the
control flow of the Python functions can be translated statement by
statement.
-/

set_option maxRecDepth 10000
set_option linter.unusedVariables false

namespace PiperSpeech

/-- Python's `\s` character class, restricted to ASCII, as used by
`re.split(r'(?<=[.!?])\s+', text)`. -/
def isPySpace (c : Char) : Bool :=
  c = ' ' || c = '\t' || c = '\n' || c = '\r' || c = '\x0b' || c = '\x0c'

/-- The sentence-ending punctuation recognised by the lookbehind `(?<=[.!?])`. -/
def isSentEnd (c : Char) : Bool :=
  c = '.' || c = '!' || c = '?'

/-- Scanner for `re.split(r'(?<=[.!?])\s+', text)`.  `inRun` records whether we
are currently consuming a maximal whitespace run that started right after a
sentence-ending character; `prevEnd` records whether the previous character was
sentence-ending punctuation; `tok` is the current token in reverse order. -/
def splitAux : List Char → Bool → Bool → List Char → List (List Char)
  | [], _, _, tok => [tok.reverse]
  | c :: rest, inRun, prevEnd, tok =>
    if inRun then
      if isPySpace c then splitAux rest true false tok
      else splitAux rest false (isSentEnd c) [c]
    else
      if prevEnd && isPySpace c then tok.reverse :: splitAux rest true false []
      else splitAux rest false (isSentEnd c) (c :: tok)

/-- `re.split(r'(?<=[.!?])\s+', text)`: split at each maximal whitespace run
that is immediately preceded by `.`, `!` or `?`. -/
def splitSentences (text : List Char) : List (List Char) :=
  splitAux text false false []

/-- Python `str.lstrip()` (whitespace from the left). -/
def lstrip (s : List Char) : List Char := s.dropWhile isPySpace

/-- Python `str.rstrip()` (whitespace from the right). -/
def rstrip (s : List Char) : List Char := (s.reverse.dropWhile isPySpace).reverse

/-- Python `str.strip()`. -/
def pyStrip (s : List Char) : List Char := lstrip (rstrip s)

/-- The accumulation loop of `split_text_into_chunks`: `current` is the
`current_chunk` string, `acc` the list of finished chunks. -/
def chunksLoop (M : Nat) : List (List Char) → List Char → List (List Char) → List (List Char)
  | [], current, acc =>
    if current = [] then acc else acc ++ [pyStrip current]
  | s :: rest, current, acc =>
    if current.length + s.length < M then
      chunksLoop M rest (current ++ s ++ [' ']) acc
    else
      if current = [] then chunksLoop M rest (s ++ [' ']) acc
      else chunksLoop M rest (s ++ [' ']) (acc ++ [pyStrip current])

/-- `split_text_into_chunks(text, max_chunk_size)` from `text_to_audio.py`. -/
def split_text_into_chunks (text : List Char) (max_chunk_size : Nat := 1000) : List (List Char) :=
  chunksLoop max_chunk_size (splitSentences text) [] []

/-- `" ".join`, written recursively to ease induction. -/
def joinSp : List (List Char) → List Char
  | [] => []
  | [s] => s
  | s :: t :: rest => s ++ ' ' :: joinSp (t :: rest)

/-- The string `current_chunk` holds after the sentences of `g` have been
accumulated into it: each sentence followed by one space. -/
def mkCur : List (List Char) → List Char
  | [] => []
  | s :: rest => s ++ ' ' :: mkCur rest

theorem rstrip_append_space (l : List Char) : rstrip (l ++ [' ']) = rstrip l := by
  simp [rstrip, List.dropWhile, isPySpace]

theorem pyStrip_append_space (l : List Char) : pyStrip (l ++ [' ']) = pyStrip l := by
  simp [pyStrip, rstrip_append_space]

theorem length_dropWhile_le' (p : Char → Bool) (l : List Char) :
    (l.dropWhile p).length ≤ l.length := by
  induction l with
  | nil => simp
  | cons a l ih =>
    by_cases h : p a
    · simp [List.dropWhile, h]
      omega
    · simp [List.dropWhile, h]

theorem pyStrip_length_le (l : List Char) : (pyStrip l).length ≤ l.length := by
  unfold pyStrip lstrip rstrip
  calc ((l.reverse.dropWhile isPySpace).reverse.dropWhile isPySpace).length
      ≤ (l.reverse.dropWhile isPySpace).reverse.length := length_dropWhile_le' _ _
    _ = (l.reverse.dropWhile isPySpace).length := by simp
    _ ≤ l.reverse.length := length_dropWhile_le' _ _
    _ = l.length := by simp

theorem mkCur_ne_nil (s : List Char) (rest : List (List Char)) : mkCur (s :: rest) ≠ [] := by
  cases s <;> simp [mkCur]

theorem mkCur_append_one (g : List (List Char)) (s : List Char) :
    mkCur (g ++ [s]) = mkCur g ++ s ++ [' '] := by
  induction g with
  | nil => simp [mkCur]
  | cons t rest ih => simp [mkCur, ih]

theorem mkCur_eq_joinSp (g : List (List Char)) (h : g ≠ []) :
    mkCur g = joinSp g ++ [' '] := by
  induction g with
  | nil => exact absurd rfl h
  | cons s rest ih =>
    cases rest with
    | nil => simp [mkCur, joinSp]
    | cons t r =>
      have h2 := ih (by simp)
      show s ++ ' ' :: mkCur (t :: r) = joinSp (s :: t :: r) ++ [' ']
      rw [h2]
      simp [joinSp]

theorem pyStrip_mkCur (g : List (List Char)) (h : g ≠ []) :
    pyStrip (mkCur g) = pyStrip (joinSp g) := by
  rw [mkCur_eq_joinSp g h, pyStrip_append_space]

/-- Loop invariant for the chunk-size bound: every chunk already emitted either
fits in `M` or is the stripped form of a single over-long sentence of `S₀`. -/
theorem chunksLoop_length_inv (M : Nat) (S₀ : List (List Char)) :
    ∀ (sentences : List (List Char)) (current : List Char) (acc : List (List Char)),
      (∀ s ∈ sentences, s ∈ S₀) →
      ((pyStrip current).length ≤ M ∨ ∃ s ∈ S₀, M < s.length ∧ pyStrip current = pyStrip s) →
      (∀ ch ∈ acc, ch.length ≤ M ∨ ∃ s ∈ S₀, M < s.length ∧ ch = pyStrip s) →
      ∀ ch ∈ chunksLoop M sentences current acc,
        ch.length ≤ M ∨ ∃ s ∈ S₀, M < s.length ∧ ch = pyStrip s := by
  intro sentences
  induction sentences with
  | nil =>
    intro current acc _ hcur hacc ch hch
    by_cases hc : current = []
    · simp [chunksLoop, hc] at hch
      exact hacc ch hch
    · simp [chunksLoop, hc] at hch
      rcases hch with hch | hch
      · exact hacc ch hch
      · subst hch
        exact hcur
  | cons s rest ih =>
    intro current acc hmem hcur hacc ch hch
    simp only [chunksLoop] at hch
    by_cases hlt : current.length + s.length < M
    · simp only [if_pos hlt] at hch
      refine ih _ _ (fun t ht => hmem t (by simp [ht])) ?_ hacc ch hch
      left
      rw [pyStrip_append_space]
      calc (pyStrip (current ++ s)).length ≤ (current ++ s).length := pyStrip_length_le _
        _ = current.length + s.length := by simp
        _ ≤ M := Nat.le_of_lt hlt
    · simp only [if_neg hlt] at hch
      have hnewcur : (pyStrip (s ++ [' '])).length ≤ M ∨
          ∃ t ∈ S₀, M < t.length ∧ pyStrip (s ++ [' ']) = pyStrip t := by
        rw [pyStrip_append_space]
        by_cases hle : (pyStrip s).length ≤ M
        · left; exact hle
        · right
          refine ⟨s, hmem s (by simp), ?_, rfl⟩
          have := pyStrip_length_le s
          omega
      by_cases hc : current = []
      · simp only [if_pos hc] at hch
        exact ih _ _ (fun t ht => hmem t (by simp [ht])) hnewcur hacc ch hch
      · simp only [if_neg hc] at hch
        refine ih _ _ (fun t ht => hmem t (by simp [ht])) hnewcur ?_ ch hch
        intro x hx
        simp at hx
        rcases hx with hx | hx
        · exact hacc x hx
        · subst hx
          rcases hcur with h | ⟨t, ht, hlen, heq⟩
          · left
            calc (pyStrip current).length ≤ (pyStrip current).length := le_refl _
              _ ≤ M := h
          · exact Or.inr ⟨t, ht, hlen, heq⟩

/-- C1: every chunk produced by `split_text_into_chunks` has length at most
`M`, except a chunk that is (the stripped form of) a single sentence whose own
length exceeds `M`; such a sentence becomes its own chunk, unsplit. -/
theorem chunk_size_bound (text : List Char) (M : Nat) :
    ∀ ch ∈ split_text_into_chunks text M,
      ch.length ≤ M ∨ ∃ s ∈ splitSentences text, M < s.length ∧ ch = pyStrip s := by
  intro ch hch
  refine chunksLoop_length_inv M (splitSentences text) (splitSentences text) [] []
    (fun s hs => hs) ?_ (by simp) ch hch
  left
  simp [pyStrip, lstrip, rstrip]

/-- Witness for `chunk_size_bound` at a concrete input. -/
theorem chunk_size_bound_witness :
    "Hello. World.".toList ∈ split_text_into_chunks "Hello. World.".toList 1000 ∧
      "Hello. World.".toList.length ≤ 1000 ∨
      ∃ s ∈ splitSentences "Hello. World.".toList, 1000 < s.length ∧
        "Hello. World.".toList = pyStrip s := by
  have := chunk_size_bound "Hello. World.".toList 1000 "Hello. World.".toList (by decide)
  rcases this with h | h
  · exact Or.inl ⟨by decide, h⟩
  · exact Or.inr h

/-- Loop invariant for order preservation: the chunks emitted by the loop are
exactly the stripped space-joins of a partition of the pending group `g`
followed by the remaining sentences. -/
theorem chunksLoop_groups (M : Nat) :
    ∀ (sentences g acc : List (List Char)),
      ∃ groups : List (List (List Char)),
        groups.flatten = g ++ sentences ∧ (∀ x ∈ groups, x ≠ []) ∧
        chunksLoop M sentences (mkCur g) acc =
          acc ++ groups.map (fun x => pyStrip (joinSp x)) := by
  intro sentences
  induction sentences with
  | nil =>
    intro g acc
    by_cases hg : g = []
    · subst hg
      exact ⟨[], by simp, by simp, by simp [chunksLoop, mkCur]⟩
    · refine ⟨[g], by simp, by simpa using hg, ?_⟩
      cases g with
      | nil => exact absurd rfl hg
      | cons s r =>
        simp [chunksLoop, mkCur_ne_nil s r, pyStrip_mkCur (s :: r) hg]
  | cons s rest ih =>
    intro g acc
    by_cases hlt : (mkCur g).length + s.length < M
    · obtain ⟨groups, hflat, hne, heq⟩ := ih (g ++ [s]) acc
      refine ⟨groups, ?_, hne, ?_⟩
      · rw [hflat]; simp
      · simp only [chunksLoop, if_pos hlt]
        rw [mkCur_append_one] at heq
        exact heq
    · by_cases hg : g = []
      · subst hg
        obtain ⟨groups, hflat, hne, heq⟩ := ih [s] acc
        refine ⟨groups, by simpa using hflat, hne, ?_⟩
        simp only [chunksLoop, if_neg hlt, mkCur, if_pos rfl]
        simpa [mkCur] using heq
      · obtain ⟨groups, hflat, hne, heq⟩ := ih [s] (acc ++ [pyStrip (mkCur g)])
        refine ⟨g :: groups, by simp [hflat], ?_, ?_⟩
        · intro x hx
          simp only [List.mem_cons] at hx
          rcases hx with hx | hx
          · subst hx; exact hg
          · exact hne x hx
        · have hcur : mkCur g ≠ [] := by
            cases g with
            | nil => exact absurd rfl hg
            | cons a b => exact mkCur_ne_nil a b
          simp only [chunksLoop, if_neg hlt, if_neg hcur]
          rw [show (s ++ [' '] : List Char) = mkCur [s] by simp [mkCur], heq]
          simp [pyStrip_mkCur g hg]

/-- C2: the chunk list is exactly the list of stripped space-joins of an
ordered partition of the sentence sequence into non-empty consecutive groups
(so space-joining the chunks reproduces the sentence sequence in order), and
the text "Hello. World." with maximum chunk size 1000 yields exactly the one
chunk "Hello. World.". -/
theorem chunks_preserve_sentence_order :
    (∀ (text : List Char) (M : Nat),
      ∃ groups : List (List (List Char)),
        groups.flatten = splitSentences text ∧ (∀ x ∈ groups, x ≠ []) ∧
        split_text_into_chunks text M = groups.map (fun x => pyStrip (joinSp x))) ∧
    split_text_into_chunks "Hello. World.".toList 1000 = ["Hello. World.".toList] := by
  constructor
  · intro text M
    obtain ⟨groups, hflat, hne, heq⟩ := chunksLoop_groups M (splitSentences text) [] []
    exact ⟨groups, by simpa using hflat, hne, by simpa [split_text_into_chunks, mkCur] using heq⟩
  · decide

/-- Witness for `chunks_preserve_sentence_order` at a concrete input. -/
theorem chunks_preserve_sentence_order_witness :
    ∃ groups : List (List (List Char)),
      groups.flatten = splitSentences "Hello. World.".toList ∧ (∀ x ∈ groups, x ≠ []) ∧
      split_text_into_chunks "Hello. World.".toList 1000 =
        groups.map (fun x => pyStrip (joinSp x)) :=
  chunks_preserve_sentence_order.1 "Hello. World.".toList 1000

/-- Counterexample to C7 as stated: on empty input the chunker does not return
an empty sequence. -/
theorem empty_text_chunks_not_nil : split_text_into_chunks [] 1000 ≠ [] := by decide

/-- Computation of the chunker on the empty text (shared helper). -/
theorem split_text_into_chunks_nil (M : Nat) : split_text_into_chunks [] M = [[]] := by
  cases M with
  | zero => rfl
  | succ n =>
    show chunksLoop (n + 1) [[]] [] [] = [[]]
    simp [chunksLoop, Nat.succ_pos, pyStrip, lstrip, rstrip, isPySpace, List.dropWhile]

/-- C7 amended: for the empty input text the chunker returns a one-element
sequence containing the empty chunk (for every maximum chunk size). -/
theorem empty_text_chunks (M : Nat) : split_text_into_chunks [] M = [[]] :=
  split_text_into_chunks_nil M

/-! ## Filesystem, progress records and the external environment

Filesystem locations are modelled by a structured `Path` type: `Path.user s`
is a path denoted by the string `s` (the output file, the progress file,
any caller-supplied segment file), while the `tmp*` constructors stand for
the entries of a scoped temporary directory, identified by a numeric token
as created by `tempfile.TemporaryDirectory()`.  Distinct constructors are
distinct filesystem locations.  Output paths are taken to be already
absolute, so `os.path.abspath` is the identity. -/

/-- The fields of the JSON record written by `save_progress`. -/
structure ProgressData where
  completed_chunks : Nat
  total_chunks : Nat
  model_name : String
  output_file : String
  timestamp : Nat
deriving DecidableEq, Repr

/-- A parsed JSON value, as returned by `json.load`. -/
inductive JsonVal where
  | jNull
  | jBool (b : Bool)
  | jNum (n : Int)
  | jStr (s : String)
  | jArr (elems : List JsonVal)
  | jObj (fields : List (String × JsonVal))

/-- Python truthiness of a JSON value (the `if progress_data:` test). -/
def jsonTruthy : JsonVal → Bool
  | JsonVal.jNull => false
  | JsonVal.jBool b => b
  | JsonVal.jNum n => n != 0
  | JsonVal.jStr s => s != ""
  | JsonVal.jArr l => !l.isEmpty
  | JsonVal.jObj kvs => !kvs.isEmpty

/-- Subscripting `v[key]` with a string key: a lookup on an object
(`json.load` keeps the last binding of a repeated key); a missing key raises
`KeyError` and any non-object value raises `TypeError` (`Except.error` either
way). -/
def jsonGet : JsonVal → String → Except Unit JsonVal
  | JsonVal.jObj kvs, k =>
    match kvs.reverse.find? (fun e => e.fst == k) with
    | some e => Except.ok e.snd
    | none => Except.error ()
  | _, _ => Except.error ()

/-- Python `==` between a JSON value and a string: true exactly for that very
string; comparison never raises. -/
def jsonEqStr (v : JsonVal) (s : String) : Bool :=
  match v with
  | JsonVal.jStr t => t == s
  | _ => false

/-- The JSON object `save_progress` serialises (`json.dump` of its dict). -/
def encodeProgress (p : ProgressData) : JsonVal :=
  JsonVal.jObj
    [("completed_chunks", JsonVal.jNum p.completed_chunks),
     ("total_chunks", JsonVal.jNum p.total_chunks),
     ("model_name", JsonVal.jStr p.model_name),
     ("output_file", JsonVal.jStr p.output_file),
     ("timestamp", JsonVal.jNum p.timestamp)]

/-- A filesystem location. -/
inductive Path where
  /-- A path given by a plain string (assumed absolute). -/
  | user (s : String)
  /-- `<tempdir>/chunk_<i>.wav` inside temporary directory `tmpdir`. -/
  | tmpChunk (tmpdir : Nat) (i : Nat)
  /-- `<tempdir>/file_list.txt`. -/
  | tmpFileList (tmpdir : Nat)
  /-- `<tempdir>/combined.wav`. -/
  | tmpCombined (tmpdir : Nat)
deriving DecidableEq, Repr

/-- Contents of a file: raw bytes, text that parses as a JSON value, or data
`json.load` raises on. -/
inductive FileData where
  | bytes (bs : List Nat)
  | jsonVal (j : JsonVal)
  | corrupt

/-- The filesystem: an association list from paths to contents (the first
binding for a path is its current content). -/
abbrev FS := List (Path × FileData)

def fsRead (fs : FS) (p : Path) : Option FileData :=
  match fs.find? (fun e => e.fst == p) with
  | some e => some e.snd
  | none => none

def fsWrite (fs : FS) (p : Path) (d : FileData) : FS :=
  (p, d) :: fs

def fsRemove (fs : FS) (p : Path) : FS :=
  fs.filter (fun e => e.fst != p)

/-- `shutil.move`: the destination receives the source's content and the
source disappears. -/
def fsMove (fs : FS) (src dst : Path) : FS :=
  match fsRead fs src with
  | some d => fsWrite (fsRemove fs src) dst d
  | none => fs

/-- `os.path.getsize`.  Only ever applied to byte files in the claims; a
non-byte file is given a token positive size. -/
def fileSize : FileData → Nat
  | FileData.bytes bs => bs.length
  | FileData.jsonVal _ => 1
  | FileData.corrupt => 1

/-- The bytes of a file (empty for non-byte contents). -/
def fileBytes : FileData → List Nat
  | FileData.bytes bs => bs
  | _ => []

/-- Is `p` an entry of temporary directory `d`? -/
def inTempDir : Path → Nat → Bool
  | Path.user _, _ => false
  | Path.tmpChunk d' _, d => d' == d
  | Path.tmpFileList d', d => d' == d
  | Path.tmpCombined d', d => d' == d

/-- Teardown of `tempfile.TemporaryDirectory()` number `d`. -/
def cleanupTemp (fs : FS) (d : Nat) : FS :=
  fs.filter (fun e => !inTempDir e.fst d)

/-- Outcome of one invocation of the piper synthesis subprocess: a non-zero
exit, or a zero exit together with the bytes of the output file it produced
(if any). -/
inductive SynthResult where
  | err
  | ok (produced : Option (List Nat))

/-- The external world: Docker availability, the per-chunk synthesis
subprocess, the ffmpeg concat container (`none` = non-zero exit), the
identities of the fresh temporary directories, and the clock. -/
structure Env where
  dockerInstalled : Bool
  dockerImageOk : Bool
  synth : Nat → List Char → SynthResult
  ffmpegOut : Option (List Nat)
  runTempDir : Nat
  combineTempDir : Nat
  now : Nat

/-- `save_progress(progress_file, completed_chunks, total_chunks, model_name,
output_file)` from `text_to_audio.py`. -/
def save_progress (fs : FS) (progress_file : Path) (completed_chunks total_chunks : Nat)
    (model_name output_file : String) (now : Nat) : FS :=
  fsWrite fs progress_file
    (FileData.jsonVal (encodeProgress
      ⟨completed_chunks, total_chunks, model_name, output_file, now⟩))

/-- `load_progress(progress_file)`: the raw parsed JSON value, or `None` when
the file is absent or `json.load` raises. -/
def load_progress (fs : FS) (progress_file : Path) : Option JsonVal :=
  match fsRead fs progress_file with
  | some (FileData.jsonVal j) => some j
  | some _ => none
  | none => none

/-- `process_text_chunk(chunk, output_dir, chunk_number, model_name)`:
run the piper subprocess; a non-zero exit raises `CalledProcessError`
(`Except.error`), otherwise the deterministic index-named output path is
returned (whether or not the subprocess actually produced the file). -/
def process_text_chunk (env : Env) (fs : FS) (chunk : List Char) (output_dir : Nat)
    (chunk_number : Nat) (model_name : String) : Except Unit (Path × FS) :=
  let chunk_output := Path.tmpChunk output_dir chunk_number
  match env.synth chunk_number chunk with
  | SynthResult.err => Except.error ()
  | SynthResult.ok none => Except.ok (chunk_output, fs)
  | SynthResult.ok (some bs) => Except.ok (chunk_output, fsWrite fs chunk_output (FileData.bytes bs))

/-- A record of filesystem effects, used to state the atomic-write claim. -/
inductive FsEvent where
  | write (p : Path) (d : FileData)
  | move (src dst : Path)

/-- The filter at the top of `combine_audio_files`: keep files that exist and
are non-empty. -/
def validFiles (fs : FS) (audio_files : List Path) : List Path :=
  audio_files.filter (fun p =>
    match fsRead fs p with
    | some d => decide (0 < fileSize d)
    | none => false)

/-- `shutil.copy2` of each existing file into the combiner's temporary
directory (performed while building `file_list.txt`), returning the new
filesystem and the write events. -/
def copySegments (ctmp : Nat) : FS → List Path → Nat → FS × List FsEvent
  | fs, [], _ => (fs, [])
  | fs, p :: rest, i =>
    match fsRead fs p with
    | some d =>
      let fs1 := fsWrite fs (Path.tmpChunk ctmp i) d
      let r := copySegments ctmp fs1 rest (i + 1)
      (r.1, FsEvent.write (Path.tmpChunk ctmp i) d :: r.2)
    | none => copySegments ctmp fs rest (i + 1)

/-- `int.to_bytes(4, 'little')`. -/
def toLE4 (n : Nat) : List Nat :=
  [n % 256, n / 256 % 256, n / 65536 % 256, n / 16777216 % 256]

/-- Little-endian decoding of a 4-byte field. -/
def decodeLE4 (bs : List Nat) : Nat :=
  match bs with
  | [b0, b1, b2, b3] => b0 + 256 * b1 + 65536 * b2 + 16777216 * b3
  | _ => 0

/-- Python `bytearray` slice assignment `l[a:b] = v` (appends when the slice
lies beyond the end of the array). -/
def pySetSlice (l : List Nat) (a b : Nat) (v : List Nat) : List Nat :=
  l.take (min a l.length) ++ v ++ l.drop (min b l.length)

/-- The header produced by the manual-concatenation fallback: the first 44
bytes of the first segment with the RIFF size field (offsets 4..7) and the
data size field (offsets 40..43) patched. -/
def patchedHeader (hdr44 : List Nat) (total_data_size : Nat) : List Nat :=
  pySetSlice (pySetSlice hdr44 4 8 (toLE4 (total_data_size + 36))) 40 44 (toLE4 total_data_size)

/-- `combine_audio_files(audio_files, output_file)` from `text_to_audio.py`:
filter out absent/empty segments, copy the survivors into a scoped temporary
directory and try the ffmpeg concat container; on its failure fall back to
manual WAV concatenation (patched 44-byte header plus the concatenation of
every segment's bytes from offset 44), written to a temporary file and then
moved into place.  `int.to_bytes(4, 'little')` raises `OverflowError` for a
negative value or one not below `2 ^ 32`, which the surrounding handler turns
into a `False` return.  Returns success, the final filesystem, and the write
effects. -/
def combine_audio_files (env : Env) (fs : FS) (audio_files : List Path) (output_file : Path) :
    Bool × FS × List FsEvent :=
  let existing_files := validFiles fs audio_files
  match existing_files with
  | [] => (false, fs, [])
  | f0 :: restFiles =>
    let ctmp := env.combineTempDir
    let copied := copySegments ctmp fs (f0 :: restFiles) 0
    let fsC := fsWrite copied.1 (Path.tmpFileList ctmp) (FileData.bytes [])
    let evs0 := copied.2 ++ [FsEvent.write (Path.tmpFileList ctmp) (FileData.bytes [])]
    match env.ffmpegOut with
    | some out =>
      (true, cleanupTemp (fsWrite fsC output_file (FileData.bytes out)) ctmp,
        evs0 ++ [FsEvent.write output_file (FileData.bytes out)])
    | none =>
      let total_data_size : Int :=
        ((f0 :: restFiles).map (fun p =>
          (fileSize ((fsRead fsC p).getD FileData.corrupt) : Int) - 44)).sum
      if h : total_data_size < 0 ∨ (2 ^ 32 : Int) ≤ total_data_size + 36 then
        (false, cleanupTemp fsC ctmp, evs0)
      else
        let header := (fileBytes ((fsRead fsC f0).getD FileData.corrupt)).take 44
        let combined := patchedHeader header total_data_size.toNat ++
          ((f0 :: restFiles).map (fun p =>
            (fileBytes ((fsRead fsC p).getD FileData.corrupt)).drop 44)).flatten
        let fs1 := fsWrite fsC (Path.tmpCombined ctmp) (FileData.bytes combined)
        let fs2 := fsMove fs1 (Path.tmpCombined ctmp) output_file
        (true, cleanupTemp fs2 ctmp,
          evs0 ++ [FsEvent.write (Path.tmpCombined ctmp) (FileData.bytes combined),
                   FsEvent.move (Path.tmpCombined ctmp) output_file])

/-- `os.path.splitext(...)[0]` on the full path (drop from the last dot on). -/
def stemOf (cs : List Char) : List Char :=
  if '.' ∈ cs then ((cs.reverse.dropWhile (fun c => c != '.')).drop 1).reverse else cs

/-- The progress-file path derived from the output path:
`<output-stem>_progress.json`, co-located with the output file. -/
def progressFileName (output_file : String) : String :=
  String.mk (stemOf output_file.toList ++ "_progress.json".toList)

/-- The resume condition of `text_to_audio` (line 304): evaluate
`progress_data and progress_data["model_name"] == model_name and
progress_data["output_file"] == output_file` with Python short-circuiting,
then on success read `progress_data["completed_chunks"]`.  A `KeyError` or
`TypeError` raised by a subscript propagates to the outer handler
(`Except.error`); without resume, or when the checkpoint is absent,
unparsable, falsy or mismatching, `start_chunk` keeps its initial value 0. -/
def computeStartValue (fs : FS) (progress_file : Path) (model_name output_file : String)
    (resume : Bool) : Except Unit JsonVal :=
  if resume then
    match load_progress fs progress_file with
    | none => Except.ok (JsonVal.jNum 0)
    | some j =>
      if jsonTruthy j then
        match jsonGet j "model_name" with
        | Except.error _ => Except.error ()
        | Except.ok v1 =>
          if jsonEqStr v1 model_name then
            match jsonGet j "output_file" with
            | Except.error _ => Except.error ()
            | Except.ok v2 =>
              if jsonEqStr v2 output_file then jsonGet j "completed_chunks"
              else Except.ok (JsonVal.jNum 0)
          else Except.ok (JsonVal.jNum 0)
      else Except.ok (JsonVal.jNum 0)
  else Except.ok (JsonVal.jNum 0)

/-- The loop's skip test `i < start_chunk` compares the Python int `i` with
the raw checkpoint value: ints and bools compare numerically, every other
type raises `TypeError` at the first iteration (the chunk list is never
empty, so that iteration always happens, before any other effect).  A
numeric start below 0 skips nothing, so the effective start index is the
clamp to `Nat`. -/
def startIndexOf : JsonVal → Except Unit Nat
  | JsonVal.jNum n => Except.ok n.toNat
  | JsonVal.jBool b => Except.ok (if b then 1 else 0)
  | _ => Except.error ()

/-- Result of a `text_to_audio` run: the returned boolean, the final
filesystem, the `chunk_files` list accumulated by the loop, and the final
value of the completed-chunks counter. -/
structure RunResult where
  ok : Bool
  fs : FS
  chunkFiles : List Path
  completed : Nat

/-- The per-chunk loop of `text_to_audio` (lines 326-342): skip indices below
`start`, synthesise the rest in order, after each success append the segment
path, bump the counter and checkpoint; on a subprocess error or a missing
output file stop at once with failure. -/
def processChunksLoop (env : Env) (tmp : Nat) (model_name output_file : String)
    (progress_file : Path) (total start : Nat) :
    List (List Char) → Nat → Nat → FS → List Path → Bool × FS × List Path × Nat
  | [], _, counter, fs, acc => (true, fs, acc.reverse, counter)
  | ch :: rest, i, counter, fs, acc =>
    if i < start then
      processChunksLoop env tmp model_name output_file progress_file total start
        rest (i + 1) counter fs (Path.tmpChunk tmp i :: acc)
    else
      match process_text_chunk env fs ch tmp i model_name with
      | Except.error _ => (false, fs, acc.reverse, counter)
      | Except.ok (chunk_output, fs1) =>
        if (fsRead fs1 chunk_output).isSome then
          let counter1 := counter + 1
          let fs2 := save_progress fs1 progress_file counter1 total model_name output_file env.now
          processChunksLoop env tmp model_name output_file progress_file total start
            rest (i + 1) counter1 fs2 (chunk_output :: acc)
        else (false, fs1, acc.reverse, counter)

/-- `text_to_audio(text, output_file, model_name, resume)` from
`text_to_audio.py`: Docker checks, chunking with max size 2000, optional
resume, the per-chunk loop, combination, and checkpoint removal on success.
A `KeyError`/`TypeError` raised while evaluating the checkpoint (at the
subscripts of line 304, or by the `i < start_chunk` comparison at the first
loop iteration) is caught by the `except Exception` handler and the run
returns `False`; nothing has been written at that point.  The scoped run
temporary directory is torn down on every exit path after its creation. -/
def text_to_audio (env : Env) (fs : FS) (text : List Char) (output_file : String)
    (model_name : String) (resume : Bool) : RunResult :=
  if !env.dockerInstalled then ⟨false, fs, [], 0⟩
  else if !env.dockerImageOk then ⟨false, fs, [], 0⟩
  else
    let progress_file := Path.user (progressFileName output_file)
    let chunks := split_text_into_chunks text 2000
    let total_chunks := chunks.length
    match (computeStartValue fs progress_file model_name output_file resume).bind
        startIndexOf with
    | Except.error _ => ⟨false, cleanupTemp fs env.runTempDir, [], 0⟩
    | Except.ok start_chunk =>
      let r := processChunksLoop env env.runTempDir model_name output_file progress_file
        total_chunks start_chunk chunks 0 start_chunk fs []
      match r with
      | (false, fs1, files, c) => ⟨false, cleanupTemp fs1 env.runTempDir, files, c⟩
      | (true, fs1, files, c) =>
        let comb := combine_audio_files env fs1 files (Path.user output_file)
        if !comb.1 then ⟨false, cleanupTemp comb.2.1 env.runTempDir, files, c⟩
        else
          let fs3 := fsRemove comb.2.1 progress_file
          ⟨true, cleanupTemp fs3 env.runTempDir, files, c⟩

/-! ## Basic filesystem lemmas -/

theorem fsRead_write_self (fs : FS) (p : Path) (d : FileData) :
    fsRead (fsWrite fs p d) p = some d := by
  simp [fsRead, fsWrite, List.find?]

theorem fsRead_write_ne (fs : FS) (p q : Path) (d : FileData) (h : q ≠ p) :
    fsRead (fsWrite fs p d) q = fsRead fs q := by
  simp only [fsRead, fsWrite, List.find?]
  have : (p == q) = false := by simp [beq_eq_false_iff_ne]; exact fun hh => h hh.symm
  simp [this]

theorem fsRead_remove_ne (fs : FS) (p q : Path) (h : q ≠ p) :
    fsRead (fsRemove fs p) q = fsRead fs q := by
  induction fs with
  | nil => rfl
  | cons e fs ih =>
    simp only [fsRemove, List.filter] at *
    by_cases he : e.fst = p
    · have h1 : (e.fst != p) = false := by simp [he]
      have h2 : (e.fst == q) = false := by
        simp [beq_eq_false_iff_ne]
        rw [he]; exact fun hh => h hh.symm
      simp only [h1]
      rw [ih]
      simp [fsRead, List.find?, h2]
    · have h1 : (e.fst != p) = true := by simp [he]
      simp only [h1]
      by_cases hq : e.fst = q
      · simp [fsRead, List.find?, hq]
      · have h2 : (e.fst == q) = false := by simp [hq]
        simp only [fsRead, List.find?, h2]
        exact ih

theorem fsRead_cleanup (fs : FS) (d : Nat) (q : Path) (h : inTempDir q d = false) :
    fsRead (cleanupTemp fs d) q = fsRead fs q := by
  induction fs with
  | nil => rfl
  | cons e fs ih =>
    simp only [cleanupTemp, List.filter] at *
    by_cases he : inTempDir e.fst d = true
    · have h2 : (e.fst == q) = false := by
        simp [beq_eq_false_iff_ne]
        intro hh
        rw [hh] at he
        rw [he] at h
        exact Bool.true_eq_false.mp h
      simp only [he, Bool.not_true]
      rw [ih]
      simp [fsRead, List.find?, h2]
    · have h1 : inTempDir e.fst d = false := Bool.eq_false_iff.mpr he
      simp only [h1, Bool.not_false]
      by_cases hq : e.fst = q
      · simp [fsRead, List.find?, hq]
      · have h2 : (e.fst == q) = false := by simp [hq]
        simp only [fsRead, List.find?, h2]
        exact ih

theorem fsRead_copySegments (ctmp : Nat) (q : Path) (h : inTempDir q ctmp = false) :
    ∀ (l : List Path) (fs : FS) (i : Nat),
      fsRead (copySegments ctmp fs l i).1 q = fsRead fs q := by
  intro l
  induction l with
  | nil => intro fs i; rfl
  | cons p rest ih =>
    intro fs i
    simp only [copySegments]
    cases hp : fsRead fs p with
    | none => exact ih fs (i + 1)
    | some d =>
      simp only []
      rw [ih, fsRead_write_ne]
      intro hq
      rw [hq] at h
      simp [inTempDir] at h

/-- An environment in which every external operation succeeds. -/
def allOkEnv : Env :=
  { dockerInstalled := true, dockerImageOk := true,
    synth := fun _ _ => SynthResult.ok (some [1, 2, 3]), ffmpegOut := some [5, 6],
    runTempDir := 0, combineTempDir := 1, now := 42 }

/-! ## C4: resume start-index selection -/

theorem jsonTruthy_record (p : ProgressData) : jsonTruthy (encodeProgress p) = true := rfl

theorem jsonGet_record_model (p : ProgressData) :
    jsonGet (encodeProgress p) "model_name" = Except.ok (JsonVal.jStr p.model_name) := rfl

theorem jsonGet_record_output (p : ProgressData) :
    jsonGet (encodeProgress p) "output_file" = Except.ok (JsonVal.jStr p.output_file) := rfl

theorem jsonGet_record_completed (p : ProgressData) :
    jsonGet (encodeProgress p) "completed_chunks" =
      Except.ok (JsonVal.jNum p.completed_chunks) := rfl

/-- Without resume the effective start index is 0. -/
theorem startValue_no_resume (fs : FS) (pf : Path) (model_name output_file : String) :
    (computeStartValue fs pf model_name output_file false).bind startIndexOf =
      Except.ok 0 := rfl

/-- A well-formed checkpoint record matching the requested model and output
path resumes at its completed count. -/
theorem computeStartValue_record (fs : FS) (pf : Path) (model_name output_file : String)
    (p : ProgressData)
    (hload : load_progress fs pf = some (encodeProgress p))
    (hm : p.model_name = model_name) (ho : p.output_file = output_file) :
    (computeStartValue fs pf model_name output_file true).bind startIndexOf =
      Except.ok p.completed_chunks := by
  simp only [computeStartValue, if_true, hload, jsonTruthy_record, jsonGet_record_model,
    jsonGet_record_output, jsonGet_record_completed, jsonEqStr, hm, ho, beq_self_eq_true,
    startIndexOf, Except.bind, Int.toNat_natCast]

/-- The success test the orchestrator applies to one chunk (lines 333-342):
`process_text_chunk` together with the caller's
`if chunk_output and os.path.exists(chunk_output)` check.  `true` means the
run aborts on this chunk. -/
def chunkStepFails (env : Env) (fs : FS) (chunk : List Char) (tmp : Nat) (i : Nat)
    (model_name : String) : Bool :=
  match process_text_chunk env fs chunk tmp i model_name with
  | Except.error _ => true
  | Except.ok (chunk_output, fs1) => !(fsRead fs1 chunk_output).isSome

/-- Counterexample to C6 as stated: a subprocess that exits 0 producing an
*empty* output file does not make the chunk step fail — emptiness is not
checked at this stage. -/
theorem chunk_step_empty_file_succeeds :
    chunkStepFails
      { dockerInstalled := true, dockerImageOk := true,
        synth := fun _ _ => SynthResult.ok (some []), ffmpegOut := none,
        runTempDir := 0, combineTempDir := 1, now := 0 }
      [] [] 0 0 "m" = false ∧
    fsRead [((Path.tmpChunk 0 0 : Path), FileData.bytes [])] (Path.tmpChunk 0 0) =
      some (FileData.bytes []) := by
  exact ⟨rfl, rfl⟩

/-- C6 amended: the chunk step fails exactly when the synthesis subprocess
exits non-zero or the expected output file does not exist afterwards; an
existing-but-empty output counts as success here (it is filtered out later by
the combiner).  On success the returned path is the deterministic index-named
`chunk_<i>.wav` in the working directory. -/
theorem chunk_step_failure_iff (env : Env) (fs : FS) (chunk : List Char) (tmp : Nat)
    (i : Nat) (model_name : String) :
    (chunkStepFails env fs chunk tmp i model_name = true ↔
      (env.synth i chunk = SynthResult.err ∨
        (env.synth i chunk = SynthResult.ok none ∧
          fsRead fs (Path.tmpChunk tmp i) = none))) ∧
    (∀ p fs1, process_text_chunk env fs chunk tmp i model_name = Except.ok (p, fs1) →
      p = Path.tmpChunk tmp i) := by
  constructor
  · cases hs : env.synth i chunk with
    | err =>
      simp [chunkStepFails, process_text_chunk, hs]
    | ok produced =>
      cases produced with
      | none =>
        simp only [chunkStepFails, process_text_chunk, hs]
        cases hr : fsRead fs (Path.tmpChunk tmp i) with
        | none => simp [hr]
        | some d => simp [hr]
      | some bs =>
        simp only [chunkStepFails, process_text_chunk, hs]
        simp [fsRead_write_self]
  · intro p fs1 hok
    cases hs : env.synth i chunk with
    | err => simp [process_text_chunk, hs] at hok
    | ok produced =>
      cases produced with
      | none =>
        simp [process_text_chunk, hs] at hok
        exact hok.1.symm
      | some bs =>
        simp [process_text_chunk, hs] at hok
        exact hok.1.symm

/-- Witness for `chunk_step_failure_iff` at a concrete input. -/
theorem chunk_step_failure_iff_witness :
    chunkStepFails
      { dockerInstalled := true, dockerImageOk := true,
        synth := fun _ _ => SynthResult.err, ffmpegOut := none,
        runTempDir := 0, combineTempDir := 1, now := 0 }
      [] [] 0 0 "m" = true :=
  ((chunk_step_failure_iff
    { dockerInstalled := true, dockerImageOk := true,
      synth := fun _ _ => SynthResult.err, ffmpegOut := none,
      runTempDir := 0, combineTempDir := 1, now := 0 }
    [] [] 0 0 "m").1).mpr (Or.inl rfl)

/-! ## C8: no empty-text validation -/

/-- Counterexample to C8 as stated: on empty input text, with every external
operation succeeding, the orchestrator reports success and writes an output
file — it performs no empty-text rejection. -/
theorem empty_text_run_succeeds :
    (text_to_audio allOkEnv [] [] "out.wav" "m" false).ok = true ∧
    fsRead (text_to_audio allOkEnv [] [] "out.wav" "m" false).fs (Path.user "out.wav") =
      some (FileData.bytes [5, 6]) := by
  exact ⟨rfl, rfl⟩

/-- C8 amended: the orchestrator performs no empty-text validation.  Empty
text is chunked into the single empty chunk and processed like any other
request; when the external operations succeed the run reports success and
writes the output file. -/
theorem empty_text_not_rejected (env : Env) (fs : FS) (output_file model_name : String)
    (bs cs : List Nat)
    (hdock : env.dockerInstalled = true) (himg : env.dockerImageOk = true)
    (hsynth : env.synth 0 [] = SynthResult.ok (some bs)) (hbs : bs ≠ [])
    (hffm : env.ffmpegOut = some cs)
    (hpf : progressFileName output_file ≠ output_file) :
    split_text_into_chunks [] 2000 = [[]] ∧
    (text_to_audio env fs [] output_file model_name false).ok = true ∧
    fsRead (text_to_audio env fs [] output_file model_name false).fs (Path.user output_file)
      = some (FileData.bytes cs) := by
  refine ⟨split_text_into_chunks_nil 2000, ?_⟩
  have hpfne : ∀ i : Nat, Path.user (progressFileName output_file) ≠ Path.tmpChunk env.runTempDir i := by
    intro i h
    cases h
  have hloop : processChunksLoop env env.runTempDir model_name output_file
      (Path.user (progressFileName output_file)) 1 0 [[]] 0 0 fs [] =
      (true,
        save_progress (fsWrite fs (Path.tmpChunk env.runTempDir 0) (FileData.bytes bs))
          (Path.user (progressFileName output_file)) 1 1 model_name output_file env.now,
        [Path.tmpChunk env.runTempDir 0], 1) := by
    simp [processChunksLoop, process_text_chunk, hsynth, fsRead_write_self]
  have hread2 : fsRead
      (save_progress (fsWrite fs (Path.tmpChunk env.runTempDir 0) (FileData.bytes bs))
        (Path.user (progressFileName output_file)) 1 1 model_name output_file env.now)
      (Path.tmpChunk env.runTempDir 0) = some (FileData.bytes bs) := by
    unfold save_progress
    rw [fsRead_write_ne _ _ _ _ (hpfne 0).symm, fsRead_write_self]
  have hval : validFiles
      (save_progress (fsWrite fs (Path.tmpChunk env.runTempDir 0) (FileData.bytes bs))
        (Path.user (progressFileName output_file)) 1 1 model_name output_file env.now)
      [Path.tmpChunk env.runTempDir 0] = [Path.tmpChunk env.runTempDir 0] := by
    simp [validFiles, hread2, fileSize, List.length_pos, hbs]
  have husernotmp : ∀ (s : String) (d : Nat), inTempDir (Path.user s) d = false := fun _ _ => rfl
  have huserne : Path.user output_file ≠ Path.user (progressFileName output_file) := by
    intro h
    exact hpf (Path.user.inj h).symm
  -- the combine call and final bookkeeping
  simp only [text_to_audio, hdock, himg, Bool.not_true, Bool.false_eq_true, if_false,
    split_text_into_chunks_nil, startValue_no_resume, List.length_cons, List.length_nil]
  simp only [hloop]
  simp only [combine_audio_files, hval, hffm]
  simp only [Bool.not_true, Bool.false_eq_true, if_false]
  refine ⟨trivial, ?_⟩
  rw [fsRead_cleanup _ _ _ (husernotmp _ _), fsRead_remove_ne _ _ _ huserne,
    fsRead_cleanup _ _ _ (husernotmp _ _), fsRead_write_self]

/-- Witness for `empty_text_not_rejected` at a concrete environment. -/
theorem empty_text_not_rejected_witness :
    split_text_into_chunks [] 2000 = [[]] ∧
    (text_to_audio allOkEnv [] [] "out.wav" "m" false).ok = true ∧
    fsRead (text_to_audio allOkEnv [] [] "out.wav" "m" false).fs (Path.user "out.wav")
      = some (FileData.bytes [5, 6]) :=
  empty_text_not_rejected allOkEnv [] "out.wav" "m" [1, 2, 3] [5, 6]
    rfl rfl rfl (by decide) rfl (by decide)

/-! ## The manual-concatenation path of the combiner -/

theorem decodeLE4_toLE4 (n : Nat) (h : n < 2 ^ 32) : decodeLE4 (toLE4 n) = n := by
  simp only [toLE4, decodeLE4]
  omega

theorem natIntSum (l : List Nat) : (l.map (fun n : Nat => (n : Int))).sum = (l.sum : Int) := by
  induction l with
  | nil => rfl
  | cons a l ih =>
    simp only [List.map_cons, List.sum_cons, ih]
    push_cast
    ring

theorem patchedHeader_split (hdr : List Nat) (h : hdr.length = 44) (S : Nat) :
    patchedHeader hdr S = hdr.take 4 ++ toLE4 (S + 36) ++ (hdr.drop 8).take 32 ++ toLE4 S := by
  have hA : (hdr.take 4).length = 4 := by
    simp [List.length_take, h]
  have hv : (toLE4 (S + 36)).length = 4 := rfl
  have h1 : pySetSlice hdr 4 8 (toLE4 (S + 36)) = hdr.take 4 ++ toLE4 (S + 36) ++ hdr.drop 8 := by
    unfold pySetSlice
    rw [h]
    simp only [show min 4 44 = 4 from rfl, show min 8 44 = 8 from rfl]
  have hlen1 : (hdr.take 4 ++ toLE4 (S + 36) ++ hdr.drop 8).length = 44 := by
    simp only [List.length_append, hA, hv, List.length_drop, h]
  unfold patchedHeader
  rw [h1]
  unfold pySetSlice
  rw [hlen1]
  simp only [show min 40 44 = 40 from rfl, show min 44 44 = 44 from rfl]
  rw [List.drop_eq_nil_of_le (le_of_eq hlen1), List.append_nil]
  have htake : (hdr.take 4 ++ toLE4 (S + 36) ++ hdr.drop 8).take 40
      = hdr.take 4 ++ toLE4 (S + 36) ++ (hdr.drop 8).take 32 := by
    rw [List.take_append_eq_append_take]
    rw [List.take_of_length_le (show (hdr.take 4 ++ toLE4 (S + 36)).length ≤ 40 by simp [hA, hv])]
    have h32 : 40 - (hdr.take 4 ++ toLE4 (S + 36)).length = 32 := by
      simp only [List.length_append, hA, hv]
    rw [h32]
  rw [htake]

theorem patchedHeader_length (hdr : List Nat) (h : hdr.length = 44) (S : Nat) :
    (patchedHeader hdr S).length = 44 := by
  rw [patchedHeader_split hdr h S]
  simp only [List.length_append, List.length_take, List.length_drop, toLE4, List.length_cons,
    List.length_nil, h]
  omega

theorem patchedHeader_drop40 (hdr : List Nat) (h : hdr.length = 44) (S : Nat) :
    (patchedHeader hdr S).drop 40 = toLE4 S := by
  rw [patchedHeader_split hdr h S]
  refine List.drop_left' ?_
  simp only [List.length_append, List.length_take, List.length_drop, toLE4, List.length_cons,
    List.length_nil, h]
  omega

theorem patchedHeader_riff (hdr : List Nat) (h : hdr.length = 44) (S : Nat) :
    ((patchedHeader hdr S).drop 4).take 4 = toLE4 (S + 36) := by
  rw [patchedHeader_split hdr h S]
  have h4 : (hdr.take 4).length = 4 := by
    simp [List.length_take, h]
  rw [List.append_assoc (hdr.take 4 ++ toLE4 (S + 36)), List.append_assoc (hdr.take 4),
    List.drop_left' h4]
  exact List.take_left' rfl

/-- Every write performed by the copy phase targets a chunk file of the
combiner's temporary directory. -/
theorem copySegments_events (ctmp : Nat) :
    ∀ (l : List Path) (fs : FS) (i : Nat) (ev : FsEvent),
      ev ∈ (copySegments ctmp fs l i).2 → ∃ j d, ev = FsEvent.write (Path.tmpChunk ctmp j) d := by
  intro l
  induction l with
  | nil => intro fs i ev hev; simp [copySegments] at hev
  | cons p rest ih =>
    intro fs i ev hev
    simp only [copySegments] at hev
    cases hp : fsRead fs p with
    | none =>
      rw [hp] at hev
      exact ih fs (i + 1) ev hev
    | some d =>
      rw [hp] at hev
      simp only [List.mem_cons] at hev
      rcases hev with hev | hev
      · exact ⟨i, d, hev⟩
      · exact ih _ (i + 1) ev hev

/-- Computation of the manual-concatenation fallback of
`combine_audio_files`: with the valid files reading as byte files of at least
header size whose total payload stays below the `to_bytes` bound, and ffmpeg
failing, the combiner succeeds, the destination receives the patched header
followed by the concatenated payloads, and the effects are the temporary
copies, the file list, the temporary combined file, and one final move onto
the destination. -/
theorem combine_manual_spec (env : Env) (fs : FS) (audio_files : List Path) (dst : Path)
    (B : Path → List Nat) (f0 : Path) (restFiles : List Path)
    (hval : validFiles fs audio_files = f0 :: restFiles)
    (henv : env.ffmpegOut = none)
    (hread : ∀ p ∈ f0 :: restFiles, fsRead fs p = some (FileData.bytes (B p)))
    (hlen : ∀ p ∈ f0 :: restFiles, 44 ≤ (B p).length)
    (hsum : ((f0 :: restFiles).map (fun p => (B p).length - 44)).sum + 36 < 2 ^ 32)
    (hnotmp : ∀ p ∈ f0 :: restFiles, inTempDir p env.combineTempDir = false)
    (hdst : inTempDir dst env.combineTempDir = false) :
    (combine_audio_files env fs audio_files dst).1 = true ∧
    fsRead (combine_audio_files env fs audio_files dst).2.1 dst =
      some (FileData.bytes (patchedHeader ((B f0).take 44)
        (((f0 :: restFiles).map (fun p => (B p).length - 44)).sum) ++
        ((f0 :: restFiles).map (fun p => (B p).drop 44)).flatten)) ∧
    (combine_audio_files env fs audio_files dst).2.2 =
      (copySegments env.combineTempDir fs (f0 :: restFiles) 0).2 ++
        [FsEvent.write (Path.tmpFileList env.combineTempDir) (FileData.bytes []),
         FsEvent.write (Path.tmpCombined env.combineTempDir)
           (FileData.bytes (patchedHeader ((B f0).take 44)
             (((f0 :: restFiles).map (fun p => (B p).length - 44)).sum) ++
             ((f0 :: restFiles).map (fun p => (B p).drop 44)).flatten)),
         FsEvent.move (Path.tmpCombined env.combineTempDir) dst] := by
  have hfsC : ∀ p ∈ f0 :: restFiles,
      fsRead (fsWrite (copySegments env.combineTempDir fs (f0 :: restFiles) 0).1
        (Path.tmpFileList env.combineTempDir) (FileData.bytes [])) p =
        some (FileData.bytes (B p)) := by
    intro p hp
    have hpn : inTempDir p env.combineTempDir = false := hnotmp p hp
    have hne : p ≠ Path.tmpFileList env.combineTempDir := by
      intro hh
      rw [hh] at hpn
      simp [inTempDir] at hpn
    rw [fsRead_write_ne _ _ _ _ hne, fsRead_copySegments _ _ hpn]
    exact hread p hp
  have hS : (((f0 :: restFiles).map (fun p => (B p).length - 44)).sum : Int) =
      ((f0 :: restFiles).map (fun p =>
        (fileSize ((fsRead (fsWrite (copySegments env.combineTempDir fs (f0 :: restFiles) 0).1
          (Path.tmpFileList env.combineTempDir) (FileData.bytes [])) p).getD FileData.corrupt) : Int)
            - 44)).sum := by
    rw [← natIntSum, List.map_map]
    congr 1
    refine List.map_congr_left ?_
    intro p hp
    simp only [Function.comp, hfsC p hp, Option.getD_some, fileSize]
    have := hlen p hp
    push_cast [this]
    ring
  have hguard : ¬((((f0 :: restFiles).map (fun p =>
      (fileSize ((fsRead (fsWrite (copySegments env.combineTempDir fs (f0 :: restFiles) 0).1
        (Path.tmpFileList env.combineTempDir) (FileData.bytes [])) p).getD FileData.corrupt) : Int)
          - 44)).sum) < 0 ∨
      (2 ^ 32 : Int) ≤ (((f0 :: restFiles).map (fun p =>
      (fileSize ((fsRead (fsWrite (copySegments env.combineTempDir fs (f0 :: restFiles) 0).1
        (Path.tmpFileList env.combineTempDir) (FileData.bytes [])) p).getD FileData.corrupt) : Int)
          - 44)).sum) + 36) := by
    rw [← hS]
    have hsum2 : ((f0 :: restFiles).map (fun p => (B p).length - 44)).sum + 36 < 4294967296 := by
      calc ((f0 :: restFiles).map (fun p => (B p).length - 44)).sum + 36 < 2 ^ 32 := hsum
        _ = 4294967296 := by norm_num
    have h232 : (2 : Int) ^ 32 = 4294967296 := by norm_num
    rw [h232]
    omega
  have hpayload : ((f0 :: restFiles).map (fun p =>
      (fileBytes ((fsRead (fsWrite (copySegments env.combineTempDir fs (f0 :: restFiles) 0).1
        (Path.tmpFileList env.combineTempDir) (FileData.bytes [])) p).getD FileData.corrupt)).drop 44))
      = (f0 :: restFiles).map (fun p => (B p).drop 44) := by
    refine List.map_congr_left ?_
    intro p hp
    rw [hfsC p hp]
    rfl
  have hhdr : (fileBytes ((fsRead (fsWrite (copySegments env.combineTempDir fs (f0 :: restFiles) 0).1
      (Path.tmpFileList env.combineTempDir) (FileData.bytes [])) f0).getD FileData.corrupt)).take 44
      = (B f0).take 44 := by
    rw [hfsC f0 (by simp)]
    rfl
  have htoNat : (((f0 :: restFiles).map (fun p =>
      (fileSize ((fsRead (fsWrite (copySegments env.combineTempDir fs (f0 :: restFiles) 0).1
        (Path.tmpFileList env.combineTempDir) (FileData.bytes [])) p).getD FileData.corrupt) : Int)
          - 44)).sum).toNat = ((f0 :: restFiles).map (fun p => (B p).length - 44)).sum := by
    rw [← hS, Int.toNat_natCast]
  simp only [combine_audio_files, hval, henv]
  rw [dif_neg hguard]
  simp only [htoNat, hpayload, hhdr]
  refine ⟨trivial, ?_, by simp⟩
  rw [fsRead_cleanup _ _ _ hdst]
  unfold fsMove
  rw [fsRead_write_self]
  rw [fsRead_write_self]

/-! ## C3: combiner round trip -/

/-- When every listed file exists with non-empty byte content, the combiner's
filter keeps the whole list. -/
theorem validFiles_all (fs : FS) (paths : List Path)
    (h : ∀ p ∈ paths, ∃ bs, fsRead fs p = some (FileData.bytes bs) ∧ bs ≠ []) :
    validFiles fs paths = paths := by
  refine List.filter_eq_self.mpr ?_
  intro p hp
  obtain ⟨bs, hr, hb⟩ := h p hp
  simp [hr, fileSize, List.length_pos, hb]

/-- An environment whose ffmpeg container always fails, forcing the manual
concatenation fallback. -/
def manualEnv : Env :=
  { dockerInstalled := true, dockerImageOk := true,
    synth := fun _ _ => SynthResult.err, ffmpegOut := none,
    runTempDir := 0, combineTempDir := 1, now := 0 }

/-- A segment whose payload alone is `2 ^ 32` bytes. -/
def bigSeg : List Nat := List.replicate (2 ^ 32 + 44) 0

/-- Arithmetic helper kept symbolic so that the kernel never evaluates the
length of the huge segment. -/
theorem overflow_sum_aux (B : Path → List Nat) (p : Path) (n : Nat)
    (hB : (B p).length = n) (h : 2 ^ 32 + 44 ≤ n) :
    2 ^ 32 ≤ (([p]).map (fun q => (B q).length - 44)).sum + 36 := by
  simp only [List.map_cons, List.map_nil, List.sum_cons, List.sum_nil, Nat.add_zero, hB]
  omega

/-- Manual-path failure by `OverflowError`: when the total payload size plus
36 reaches `2 ^ 32`, `int.to_bytes(4, 'little')` raises, the handler returns
`False`, and no file outside the combiner's temporary directory is touched. -/
theorem combine_manual_overflow (env : Env) (fs : FS) (audio_files : List Path) (dst : Path)
    (B : Path → List Nat) (f0 : Path) (restFiles : List Path)
    (hval : validFiles fs audio_files = f0 :: restFiles)
    (henv : env.ffmpegOut = none)
    (hread : ∀ p ∈ f0 :: restFiles, fsRead fs p = some (FileData.bytes (B p)))
    (hlen : ∀ p ∈ f0 :: restFiles, 44 ≤ (B p).length)
    (hover : 2 ^ 32 ≤ ((f0 :: restFiles).map (fun p => (B p).length - 44)).sum + 36)
    (hnotmp : ∀ p ∈ f0 :: restFiles, inTempDir p env.combineTempDir = false) :
    (combine_audio_files env fs audio_files dst).1 = false ∧
    ∀ q, inTempDir q env.combineTempDir = false →
      fsRead (combine_audio_files env fs audio_files dst).2.1 q = fsRead fs q := by
  have hfsC : ∀ p ∈ f0 :: restFiles,
      fsRead (fsWrite (copySegments env.combineTempDir fs (f0 :: restFiles) 0).1
        (Path.tmpFileList env.combineTempDir) (FileData.bytes [])) p =
        some (FileData.bytes (B p)) := by
    intro p hp
    have hpn : inTempDir p env.combineTempDir = false := hnotmp p hp
    have hne : p ≠ Path.tmpFileList env.combineTempDir := by
      intro hh
      rw [hh] at hpn
      simp [inTempDir] at hpn
    rw [fsRead_write_ne _ _ _ _ hne, fsRead_copySegments _ _ hpn]
    exact hread p hp
  have hS : (((f0 :: restFiles).map (fun p => (B p).length - 44)).sum : Int) =
      ((f0 :: restFiles).map (fun p =>
        (fileSize ((fsRead (fsWrite (copySegments env.combineTempDir fs (f0 :: restFiles) 0).1
          (Path.tmpFileList env.combineTempDir) (FileData.bytes [])) p).getD FileData.corrupt) : Int)
            - 44)).sum := by
    rw [← natIntSum, List.map_map]
    congr 1
    refine List.map_congr_left ?_
    intro p hp
    simp only [Function.comp, hfsC p hp, Option.getD_some, fileSize]
    have := hlen p hp
    push_cast [this]
    ring
  have hguard : ((((f0 :: restFiles).map (fun p =>
      (fileSize ((fsRead (fsWrite (copySegments env.combineTempDir fs (f0 :: restFiles) 0).1
        (Path.tmpFileList env.combineTempDir) (FileData.bytes [])) p).getD FileData.corrupt) : Int)
          - 44)).sum) < 0 ∨
      (2 ^ 32 : Int) ≤ (((f0 :: restFiles).map (fun p =>
      (fileSize ((fsRead (fsWrite (copySegments env.combineTempDir fs (f0 :: restFiles) 0).1
        (Path.tmpFileList env.combineTempDir) (FileData.bytes [])) p).getD FileData.corrupt) : Int)
          - 44)).sum) + 36) := by
    right
    rw [← hS]
    have h232 : (2 : Int) ^ 32 = 4294967296 := by norm_num
    have hover2 : 4294967296 ≤ ((f0 :: restFiles).map (fun p => (B p).length - 44)).sum + 36 := by
      calc (4294967296 : Nat) = 2 ^ 32 := by norm_num
        _ ≤ ((f0 :: restFiles).map (fun p => (B p).length - 44)).sum + 36 := hover
    rw [h232]
    omega
  simp only [combine_audio_files, hval, henv]
  rw [dif_pos hguard]
  refine ⟨rfl, ?_⟩
  intro q hq
  have hqfl : q ≠ Path.tmpFileList env.combineTempDir := by
    intro hh
    rw [hh] at hq
    simp [inTempDir] at hq
  rw [fsRead_cleanup _ _ _ hq, fsRead_write_ne _ _ _ _ hqfl, fsRead_copySegments _ _ hq]

/-- Counterexample to C3 as stated: a single valid segment with a 44-byte
header whose payload size is `2 ^ 32` makes `int.to_bytes(4, 'little')` raise
`OverflowError`; the manual path then returns failure and writes no output
file at all, rather than an output file with the claimed size fields. -/
theorem combiner_overflow_fails :
    (combine_audio_files manualEnv [(Path.user "big.wav", FileData.bytes bigSeg)]
      [Path.user "big.wav"] (Path.user "out.wav")).1 = false ∧
    fsRead (combine_audio_files manualEnv [(Path.user "big.wav", FileData.bytes bigSeg)]
      [Path.user "big.wav"] (Path.user "out.wav")).2.1 (Path.user "out.wav") = none := by
  have hbig : bigSeg.length = 2 ^ 32 + 44 := by
    unfold bigSeg
    exact List.length_replicate _ _
  have hread0 : fsRead [(Path.user "big.wav", FileData.bytes bigSeg)] (Path.user "big.wav")
      = some (FileData.bytes bigSeg) := rfl
  have hval : validFiles [(Path.user "big.wav", FileData.bytes bigSeg)] [Path.user "big.wav"]
      = [Path.user "big.wav"] := by
    refine validFiles_all _ _ ?_
    intro p hp
    simp only [List.mem_singleton] at hp
    subst hp
    refine ⟨bigSeg, hread0, ?_⟩
    intro hnil
    have h2 := congrArg List.length hnil
    rw [hbig] at h2
    norm_num at h2
  obtain ⟨h1, h2⟩ := combine_manual_overflow manualEnv
    [(Path.user "big.wav", FileData.bytes bigSeg)] [Path.user "big.wav"]
    (Path.user "out.wav") (fun _ => bigSeg) (Path.user "big.wav") [] hval rfl
    (by intro p hp
        simp only [List.mem_singleton] at hp
        subst hp
        exact hread0)
    (by intro p hp
        rw [hbig]
        omega)
    (overflow_sum_aux (fun _ => bigSeg) (Path.user "big.wav") (2 ^ 32 + 44) hbig (by omega))
    (by intro p hp
        simp only [List.mem_singleton] at hp
        subst hp
        rfl)
  refine ⟨h1, ?_⟩
  rw [h2 (Path.user "out.wav") rfl]
  rfl

/-- C3 amended: for every non-empty list of valid segment files sharing an
identical 44-byte header, *provided the total payload plus 36 stays below
`2 ^ 32`* (else `to_bytes` raises and the combiner fails), the
manual-concatenation path produces an output whose data-size field decodes to
the sum of the segments' file sizes minus 44 each, whose RIFF-size field
decodes to that sum plus 36, and whose bytes past the header are the ordered
concatenation of the segments' bytes from offset 44 on. -/
theorem combiner_round_trip (env : Env) (fs : FS) (paths : List Path) (dstS : String)
    (B : Path → List Nat) (hdr : List Nat)
    (hne : paths ≠ [])
    (henv : env.ffmpegOut = none)
    (hhdr : hdr.length = 44)
    (huser : ∀ p ∈ paths, ∃ s, p = Path.user s)
    (hread : ∀ p ∈ paths, fsRead fs p = some (FileData.bytes (B p)))
    (hsame : ∀ p ∈ paths, (B p).take 44 = hdr)
    (hlen : ∀ p ∈ paths, 44 ≤ (B p).length)
    (hsum : (paths.map (fun p => (B p).length - 44)).sum + 36 < 2 ^ 32) :
    (combine_audio_files env fs paths (Path.user dstS)).1 = true ∧
    ∃ bs, fsRead (combine_audio_files env fs paths (Path.user dstS)).2.1 (Path.user dstS)
        = some (FileData.bytes bs) ∧
      decodeLE4 ((bs.drop 40).take 4) = (paths.map (fun p => (B p).length - 44)).sum ∧
      decodeLE4 ((bs.drop 4).take 4) = (paths.map (fun p => (B p).length - 44)).sum + 36 ∧
      bs.drop 44 = (paths.map (fun p => (B p).drop 44)).flatten := by
  obtain ⟨f0, restFiles, rfl⟩ : ∃ f0 restFiles, paths = f0 :: restFiles := by
    cases paths with
    | nil => exact absurd rfl hne
    | cons a l => exact ⟨a, l, rfl⟩
  have hval : validFiles fs (f0 :: restFiles) = f0 :: restFiles := by
    refine validFiles_all _ _ ?_
    intro p hp
    refine ⟨B p, hread p hp, ?_⟩
    intro hnil
    have := hlen p hp
    rw [hnil] at this
    simp at this
  have hnotmp : ∀ p ∈ f0 :: restFiles, inTempDir p env.combineTempDir = false := by
    intro p hp
    obtain ⟨s, rfl⟩ := huser p hp
    rfl
  obtain ⟨h1, h2, h3⟩ := combine_manual_spec env fs (f0 :: restFiles) (Path.user dstS) B f0
    restFiles hval henv hread hlen hsum hnotmp rfl
  set S := ((f0 :: restFiles).map (fun p => (B p).length - 44)).sum with hSdef
  have hhdr0 : ((B f0).take 44).length = 44 := by
    rw [List.length_take]
    have := hlen f0 (by simp)
    omega
  have hplen : (patchedHeader ((B f0).take 44) S).length = 44 := patchedHeader_length _ hhdr0 S
  have hSlt : S < 2 ^ 32 := by omega
  have hS36 : S + 36 < 2 ^ 32 := hsum
  refine ⟨h1, _, h2, ?_, ?_, ?_⟩
  · rw [List.drop_append_eq_append_drop, patchedHeader_drop40 _ hhdr0 S, hplen]
    rw [List.take_append_eq_append_take]
    have : (toLE4 S).length = 4 := rfl
    rw [List.take_of_length_le (le_of_eq this), this]
    simp only [Nat.sub_self, List.take_zero, List.append_nil]
    exact decodeLE4_toLE4 S hSlt
  · rw [List.drop_append_eq_append_drop, hplen]
    have h4 : ((patchedHeader ((B f0).take 44) S).drop 4).length = 40 := by
      rw [List.length_drop, hplen]
    rw [List.take_append_eq_append_take]
    have h44 : ((patchedHeader ((B f0).take 44) S).drop 4).take 4 = toLE4 (S + 36) :=
      patchedHeader_riff _ hhdr0 S
    rw [h44, h4]
    simp only [show (4 : Nat) - 40 = 0 from rfl, List.take_zero, List.append_nil]
    exact decodeLE4_toLE4 (S + 36) hS36
  · rw [List.drop_append_eq_append_drop, hplen]
    rw [List.drop_eq_nil_of_le (le_of_eq hplen)]
    simp

/-- Witness for `combiner_round_trip`: two 44-byte-header segments with
payloads of 100 and 200 bytes give data-size field 300 and RIFF field 336. -/
theorem combiner_round_trip_witness :
    (combine_audio_files manualEnv
      [(Path.user "seg1.wav", FileData.bytes (List.range 44 ++ List.replicate 100 7)),
       (Path.user "seg2.wav", FileData.bytes (List.range 44 ++ List.replicate 200 9))]
      [Path.user "seg1.wav", Path.user "seg2.wav"] (Path.user "out.wav")).1 = true ∧
    ∃ bs, fsRead (combine_audio_files manualEnv
      [(Path.user "seg1.wav", FileData.bytes (List.range 44 ++ List.replicate 100 7)),
       (Path.user "seg2.wav", FileData.bytes (List.range 44 ++ List.replicate 200 9))]
      [Path.user "seg1.wav", Path.user "seg2.wav"] (Path.user "out.wav")).2.1
        (Path.user "out.wav") = some (FileData.bytes bs) ∧
      decodeLE4 ((bs.drop 40).take 4) = 300 ∧
      decodeLE4 ((bs.drop 4).take 4) = 336 ∧
      bs.drop 44 = List.replicate 100 7 ++ List.replicate 200 9 := by
  have h := combiner_round_trip manualEnv
    [(Path.user "seg1.wav", FileData.bytes (List.range 44 ++ List.replicate 100 7)),
     (Path.user "seg2.wav", FileData.bytes (List.range 44 ++ List.replicate 200 9))]
    [Path.user "seg1.wav", Path.user "seg2.wav"] "out.wav"
    (fun p => if p = Path.user "seg1.wav" then List.range 44 ++ List.replicate 100 7
      else List.range 44 ++ List.replicate 200 9)
    (List.range 44)
    (by decide) rfl (by decide)
    (by intro p hp; simp only [List.mem_cons, List.mem_singleton] at hp
        rcases hp with h | h | h
        · exact ⟨"seg1.wav", h⟩
        · exact ⟨"seg2.wav", h⟩
        · cases h)
    (by intro p hp
        simp only [List.mem_cons, List.mem_singleton] at hp
        rcases hp with rfl | rfl | h
        · rfl
        · rfl
        · cases h)
    (by decide) (by decide) (by decide)
  obtain ⟨h1, bs, h2, h3, h4, h5⟩ := h
  refine ⟨h1, bs, h2, ?_, ?_, ?_⟩
  · rw [h3]; decide
  · rw [h4]; decide
  · rw [h5]; decide

/-! ## C9: atomicity of the combiner's write -/

/-- The path a filesystem event creates or replaces. -/
def eventTarget : FsEvent → Path
  | FsEvent.write p _ => p
  | FsEvent.move _ dst => dst

/-- An environment whose ffmpeg concat container succeeds, producing `[9]`. -/
def ffmpegEnv : Env :=
  { dockerInstalled := true, dockerImageOk := true,
    synth := fun _ _ => SynthResult.err, ffmpegOut := some [9],
    runTempDir := 0, combineTempDir := 1, now := 0 }

/-- Counterexample to C9 as stated: when the ffmpeg container path succeeds,
the successful combiner invocation writes the destination file directly —
there is no write-to-temporary-then-move for the destination. -/
theorem combiner_ffmpeg_not_atomic :
    (combine_audio_files ffmpegEnv [(Path.user "a.wav", FileData.bytes [1])]
      [Path.user "a.wav"] (Path.user "out.wav")).1 = true ∧
    (∀ src, FsEvent.move src (Path.user "out.wav") ∉
      (combine_audio_files ffmpegEnv [(Path.user "a.wav", FileData.bytes [1])]
        [Path.user "a.wav"] (Path.user "out.wav")).2.2) ∧
    FsEvent.write (Path.user "out.wav") (FileData.bytes [9]) ∈
      (combine_audio_files ffmpegEnv [(Path.user "a.wav", FileData.bytes [1])]
        [Path.user "a.wav"] (Path.user "out.wav")).2.2 := by
  have hev : (combine_audio_files ffmpegEnv [(Path.user "a.wav", FileData.bytes [1])]
      [Path.user "a.wav"] (Path.user "out.wav")).2.2 =
      [FsEvent.write (Path.tmpChunk 1 0) (FileData.bytes [1]),
       FsEvent.write (Path.tmpFileList 1) (FileData.bytes []),
       FsEvent.write (Path.user "out.wav") (FileData.bytes [9])] := rfl
  refine ⟨rfl, ?_, ?_⟩
  · intro src hsrc
    rw [hev] at hsrc
    simp at hsrc
  · rw [hev]
    exact List.mem_cons_of_mem _ (List.mem_cons_of_mem _ (List.mem_cons_self _ _))

/-- C9 amended: on the manual-concatenation path, a successful combiner
invocation is atomic: the combined bytes are written to a file of the
combiner's temporary directory and then moved onto the destination, the
destination path itself is never the target of a direct write, and exactly
one recorded effect targets the destination. -/
theorem combiner_manual_atomic (env : Env) (fs : FS) (audio_files : List Path) (dstS : String)
    (B : Path → List Nat) (f0 : Path) (restFiles : List Path)
    (hval : validFiles fs audio_files = f0 :: restFiles)
    (henv : env.ffmpegOut = none)
    (hread : ∀ p ∈ f0 :: restFiles, fsRead fs p = some (FileData.bytes (B p)))
    (hlen : ∀ p ∈ f0 :: restFiles, 44 ≤ (B p).length)
    (hsum : ((f0 :: restFiles).map (fun p => (B p).length - 44)).sum + 36 < 2 ^ 32)
    (hnotmp : ∀ p ∈ f0 :: restFiles, inTempDir p env.combineTempDir = false) :
    (combine_audio_files env fs audio_files (Path.user dstS)).1 = true ∧
    (∃ tmpP, tmpP ≠ Path.user dstS ∧
      (∃ d, FsEvent.write tmpP d ∈ (combine_audio_files env fs audio_files (Path.user dstS)).2.2) ∧
      FsEvent.move tmpP (Path.user dstS) ∈
        (combine_audio_files env fs audio_files (Path.user dstS)).2.2) ∧
    (∀ d, FsEvent.write (Path.user dstS) d ∉
      (combine_audio_files env fs audio_files (Path.user dstS)).2.2) ∧
    ((combine_audio_files env fs audio_files (Path.user dstS)).2.2.countP
      (fun ev => eventTarget ev == Path.user dstS)) = 1 := by
  obtain ⟨h1, h2, h3⟩ := combine_manual_spec env fs audio_files (Path.user dstS) B f0
    restFiles hval henv hread hlen hsum hnotmp rfl
  refine ⟨h1, ?_, ?_, ?_⟩
  · refine ⟨Path.tmpCombined env.combineTempDir, ?_, ?_, ?_⟩
    · intro h
      cases h
    · refine ⟨FileData.bytes (patchedHeader ((B f0).take 44)
        (((f0 :: restFiles).map (fun p => (B p).length - 44)).sum) ++
        ((f0 :: restFiles).map (fun p => (B p).drop 44)).flatten), ?_⟩
      rw [h3]
      simp
    · rw [h3]
      simp
  · intro d hd
    rw [h3] at hd
    rcases List.mem_append.mp hd with hd | hd
    · obtain ⟨j, d', hj⟩ := copySegments_events env.combineTempDir (f0 :: restFiles) fs 0 _ hd
      cases hj
    · simp only [List.mem_cons, List.mem_singleton] at hd
      rcases hd with hd | hd | hd | hd
      · cases hd
      · cases hd
      · cases hd
      · cases hd
  · rw [h3, List.countP_append]
    have hc0 : (copySegments env.combineTempDir fs (f0 :: restFiles) 0).2.countP
        (fun ev => eventTarget ev == Path.user dstS) = 0 := by
      rw [List.countP_eq_zero]
      intro ev hev
      obtain ⟨j, d', hj⟩ := copySegments_events env.combineTempDir (f0 :: restFiles) fs 0 ev hev
      subst hj
      simp [eventTarget]
    rw [hc0]
    simp [List.countP_cons, eventTarget]

/-- Witness for `combiner_manual_atomic` at a concrete pair of segments. -/
theorem combiner_manual_atomic_witness :
    (combine_audio_files manualEnv
      [(Path.user "seg1.wav", FileData.bytes (List.range 44 ++ List.replicate 100 7)),
       (Path.user "seg2.wav", FileData.bytes (List.range 44 ++ List.replicate 200 9))]
      [Path.user "seg1.wav", Path.user "seg2.wav"] (Path.user "out.wav")).1 = true ∧
    (∃ tmpP, tmpP ≠ Path.user "out.wav" ∧
      (∃ d, FsEvent.write tmpP d ∈ (combine_audio_files manualEnv
        [(Path.user "seg1.wav", FileData.bytes (List.range 44 ++ List.replicate 100 7)),
         (Path.user "seg2.wav", FileData.bytes (List.range 44 ++ List.replicate 200 9))]
        [Path.user "seg1.wav", Path.user "seg2.wav"] (Path.user "out.wav")).2.2) ∧
      FsEvent.move tmpP (Path.user "out.wav") ∈ (combine_audio_files manualEnv
        [(Path.user "seg1.wav", FileData.bytes (List.range 44 ++ List.replicate 100 7)),
         (Path.user "seg2.wav", FileData.bytes (List.range 44 ++ List.replicate 200 9))]
        [Path.user "seg1.wav", Path.user "seg2.wav"] (Path.user "out.wav")).2.2) ∧
    (∀ d, FsEvent.write (Path.user "out.wav") d ∉ (combine_audio_files manualEnv
      [(Path.user "seg1.wav", FileData.bytes (List.range 44 ++ List.replicate 100 7)),
       (Path.user "seg2.wav", FileData.bytes (List.range 44 ++ List.replicate 200 9))]
      [Path.user "seg1.wav", Path.user "seg2.wav"] (Path.user "out.wav")).2.2) ∧
    ((combine_audio_files manualEnv
      [(Path.user "seg1.wav", FileData.bytes (List.range 44 ++ List.replicate 100 7)),
       (Path.user "seg2.wav", FileData.bytes (List.range 44 ++ List.replicate 200 9))]
      [Path.user "seg1.wav", Path.user "seg2.wav"] (Path.user "out.wav")).2.2.countP
      (fun ev => eventTarget ev == Path.user "out.wav")) = 1 :=
  combiner_manual_atomic manualEnv
    [(Path.user "seg1.wav", FileData.bytes (List.range 44 ++ List.replicate 100 7)),
     (Path.user "seg2.wav", FileData.bytes (List.range 44 ++ List.replicate 200 9))]
    [Path.user "seg1.wav", Path.user "seg2.wav"] "out.wav"
    (fun p => if p = Path.user "seg1.wav" then List.range 44 ++ List.replicate 100 7
      else List.range 44 ++ List.replicate 200 9)
    (Path.user "seg1.wav") [Path.user "seg2.wav"]
    (by decide) rfl
    (by intro p hp
        simp only [List.mem_cons, List.mem_singleton] at hp
        rcases hp with rfl | rfl | h
        · rfl
        · rfl
        · cases h)
    (by decide) (by decide) (by decide)

/-! ## Behaviour of the per-chunk loop -/

/-- While `i < start` the loop only appends the expected (never created)
segment paths, leaving the filesystem and counter untouched. -/
theorem processLoop_skip (env : Env) (tmp : Nat) (model_name output_file : String)
    (pf : Path) (total start : Nat) :
    ∀ (n : Nat) (l : List (List Char)) (i counter : Nat) (fs : FS) (acc : List Path),
      i + n = start → n ≤ l.length →
      processChunksLoop env tmp model_name output_file pf total start l i counter fs acc =
        processChunksLoop env tmp model_name output_file pf total start (l.drop n) start counter fs
          (((List.range' i n).map (Path.tmpChunk tmp)).reverse ++ acc) := by
  intro n
  induction n with
  | zero =>
    intro l i counter fs acc hstart hlen
    have : i = start := by omega
    subst this
    simp
  | succ m ih =>
    intro l i counter fs acc hstart hlen
    cases l with
    | nil => simp at hlen
    | cons ch rest =>
      have hi : i < start := by omega
      simp only [processChunksLoop, if_pos hi]
      rw [ih rest (i + 1) counter fs (Path.tmpChunk tmp i :: acc) (by omega)
        (by simpa using hlen)]
      have hr : List.range' i (m + 1) = i :: List.range' (i + 1) m := rfl
      rw [hr]
      simp

/-- Processing a block of chunks that all synthesise successfully: the loop
walks the whole block, appending the segment paths in order, bumping the
counter once per chunk and checkpointing after each one.  The resulting
filesystem holds the synthesised bytes of every processed index, agrees with
the starting filesystem away from those paths and the checkpoint, and the
checkpoint records the final counter. -/
theorem processLoop_ok_seg (env : Env) (tmp : Nat) (model_name output_file : String)
    (pf : Path) (total start : Nat) (B : Nat → List Nat)
    (hpf : ∀ j : Nat, pf ≠ Path.tmpChunk tmp j) :
    ∀ (l1 l2 : List (List Char)) (k counter : Nat) (fs : FS) (acc : List Path),
      start ≤ k →
      (∀ j ch, l1.get? j = some ch → env.synth (k + j) ch = SynthResult.ok (some (B (k + j)))) →
      ∃ fs',
        processChunksLoop env tmp model_name output_file pf total start (l1 ++ l2) k counter fs acc
          = processChunksLoop env tmp model_name output_file pf total start l2 (k + l1.length)
            (counter + l1.length) fs'
            (((List.range' k l1.length).map (Path.tmpChunk tmp)).reverse ++ acc) ∧
        (∀ j, k ≤ j → j < k + l1.length →
          fsRead fs' (Path.tmpChunk tmp j) = some (FileData.bytes (B j))) ∧
        (∀ q, (∀ j, k ≤ j → j < k + l1.length → q ≠ Path.tmpChunk tmp j) → q ≠ pf →
          fsRead fs' q = fsRead fs q) ∧
        (fsRead fs' pf = if 0 < l1.length then
          some (FileData.jsonVal (encodeProgress
            ⟨counter + l1.length, total, model_name, output_file, env.now⟩))
          else fsRead fs pf) := by
  intro l1
  induction l1 with
  | nil =>
    intro l2 k counter fs acc hk hs
    refine ⟨fs, by simp, ?_, fun q _ _ => rfl, by simp⟩
    intro j h1 h2
    simp only [List.length_nil, Nat.add_zero] at h2
    omega
  | cons ch rest ih =>
    intro l2 k counter fs acc hk hs
    have hsynth0 : env.synth k ch = SynthResult.ok (some (B k)) := by
      have h0 := hs 0 ch rfl
      simpa using h0
    have hstep : processChunksLoop env tmp model_name output_file pf total start
        ((ch :: rest) ++ l2) k counter fs acc =
        processChunksLoop env tmp model_name output_file pf total start (rest ++ l2) (k + 1)
          (counter + 1)
          (save_progress (fsWrite fs (Path.tmpChunk tmp k) (FileData.bytes (B k))) pf
            (counter + 1) total model_name output_file env.now)
          (Path.tmpChunk tmp k :: acc) := by
      simp only [List.cons_append, processChunksLoop, if_neg (by omega : ¬ k < start),
        process_text_chunk, hsynth0]
      simp [fsRead_write_self]
    have hs' : ∀ j ch', rest.get? j = some ch' →
        env.synth ((k + 1) + j) ch' = SynthResult.ok (some (B ((k + 1) + j))) := by
      intro j ch' hj
      have harith : k + (j + 1) = (k + 1) + j := by omega
      have h0 := hs (j + 1) ch' (by simpa using hj)
      rw [harith] at h0
      exact h0
    obtain ⟨fs', heq, hreads, hframe, hprog⟩ := ih l2 (k + 1) (counter + 1)
      (save_progress (fsWrite fs (Path.tmpChunk tmp k) (FileData.bytes (B k))) pf
        (counter + 1) total model_name output_file env.now)
      (Path.tmpChunk tmp k :: acc) (by omega) hs'
    have hknej : ∀ j : Nat, k + 1 ≤ j → Path.tmpChunk tmp k ≠ Path.tmpChunk tmp j := by
      intro j hj hcontra
      injection hcontra with h1 h2
      omega
    have hkne : Path.tmpChunk tmp k ≠ pf := fun h => hpf k h.symm
    have hread_fs2_k : fsRead
        (save_progress (fsWrite fs (Path.tmpChunk tmp k) (FileData.bytes (B k))) pf
          (counter + 1) total model_name output_file env.now)
        (Path.tmpChunk tmp k) = some (FileData.bytes (B k)) := by
      unfold save_progress
      rw [fsRead_write_ne _ _ _ _ hkne, fsRead_write_self]
    refine ⟨fs', ?_, ?_, ?_, ?_⟩
    · rw [hstep, heq]
      have hlen1 : (ch :: rest).length = rest.length + 1 := rfl
      have ha1 : k + (ch :: rest).length = (k + 1) + rest.length := by
        rw [hlen1]; omega
      have ha2 : counter + (ch :: rest).length = (counter + 1) + rest.length := by
        rw [hlen1]; omega
      rw [ha1, ha2, hlen1]
      have hr : List.range' k (rest.length + 1) = k :: List.range' (k + 1) rest.length := rfl
      rw [hr]
      simp
    · intro j h1 h2
      by_cases hjk : j = k
      · subst hjk
        rw [hframe (Path.tmpChunk tmp j) (fun j' hj' _ => hknej j' hj') hkne]
        exact hread_fs2_k
      · refine hreads j (by omega) ?_
        have : (ch :: rest).length = rest.length + 1 := rfl
        rw [this] at h2
        omega
    · intro q hq hqpf
      have hq' : ∀ j, k + 1 ≤ j → j < (k + 1) + rest.length → q ≠ Path.tmpChunk tmp j := by
        intro j hj1 hj2
        refine hq j (by omega) ?_
        have : (ch :: rest).length = rest.length + 1 := rfl
        rw [this]
        omega
      rw [hframe q hq' hqpf]
      have hqk : q ≠ Path.tmpChunk tmp k := by
        refine hq k (le_refl k) ?_
        have : (ch :: rest).length = rest.length + 1 := rfl
        rw [this]
        omega
      unfold save_progress
      rw [fsRead_write_ne _ _ _ _ hqpf, fsRead_write_ne _ _ _ _ hqk]
    · have hlen1 : (ch :: rest).length = rest.length + 1 := rfl
      rw [hlen1, if_pos (by omega : 0 < rest.length + 1)]
      rcases Nat.eq_zero_or_pos rest.length with hz | hpos
      · rw [hprog, if_neg (by omega)]
        rw [hz]
        unfold save_progress
        rw [fsRead_write_self]
      · rw [hprog, if_pos hpos]
        have : (counter + 1) + rest.length = counter + (rest.length + 1) := by omega
        rw [this]

/-! ## C5: failure halts the run, checkpoint survives -/

/-- An environment whose synthesis subprocess always exits non-zero. -/
def allErrEnv : Env :=
  { dockerInstalled := true, dockerImageOk := true,
    synth := fun _ _ => SynthResult.err, ffmpegOut := none,
    runTempDir := 0, combineTempDir := 1, now := 0 }

/-- Counterexample to C5 as stated: when chunk processing fails at index 0 of
a fresh run (no chunk completed yet), no checkpoint was ever written, so no
checkpoint file is on disk afterwards — the claim's "checkpoint remains on
disk recording exactly i completed chunks" fails at i = 0. -/
theorem chunk_failure_at_zero_no_checkpoint :
    (text_to_audio allErrEnv [] "Hi.".toList "out.wav" "m" false).ok = false ∧
    (text_to_audio allErrEnv [] "Hi.".toList "out.wav" "m" false).completed = 0 ∧
    fsRead (text_to_audio allErrEnv [] "Hi.".toList "out.wav" "m" false).fs
      (Path.user (progressFileName "out.wav")) = none := by
  exact ⟨rfl, rfl, rfl⟩

/-- C5 amended: for every fresh run (start index 0, empty working area, no
pre-existing output) in which the first `i ≥ 1` chunks synthesise
successfully and chunk `i` fails (subprocess error or missing output), the
run reports failure at once: the result is `False` (process exit code 1), the
loop stops having processed exactly indices `0..i-1`, the checkpoint file
remains on disk recording exactly `i` completed chunks, and no output file is
created.  (At `i = 0` no checkpoint was ever written, so no file remains.) -/
theorem chunk_failure_halts (env : Env) (fs : FS) (text : List Char)
    (output_file model_name : String) (i : Nat) (B : Nat → List Nat)
    (hdock : env.dockerInstalled = true) (himg : env.dockerImageOk = true)
    (hi : 1 ≤ i)
    (htotal : i < (split_text_into_chunks text 2000).length)
    (hok : ∀ j ch, (split_text_into_chunks text 2000).get? j = some ch → j < i →
      env.synth j ch = SynthResult.ok (some (B j)))
    (hfail : env.synth i ((split_text_into_chunks text 2000).getD i []) = SynthResult.err ∨
      env.synth i ((split_text_into_chunks text 2000).getD i []) = SynthResult.ok none)
    (hfresh : ∀ k : Nat, fsRead fs (Path.tmpChunk env.runTempDir k) = none)
    (hout : fsRead fs (Path.user output_file) = none)
    (hpf : progressFileName output_file ≠ output_file) :
    (text_to_audio env fs text output_file model_name false).ok = false ∧
    (text_to_audio env fs text output_file model_name false).completed = i ∧
    fsRead (text_to_audio env fs text output_file model_name false).fs
      (Path.user (progressFileName output_file)) =
      some (FileData.jsonVal (encodeProgress ⟨i, (split_text_into_chunks text 2000).length,
        model_name, output_file, env.now⟩)) ∧
    fsRead (text_to_audio env fs text output_file model_name false).fs (Path.user output_file)
      = none ∧
    (text_to_audio env fs text output_file model_name false).chunkFiles =
      (List.range i).map (Path.tmpChunk env.runTempDir) := by
  have hpfne : ∀ j : Nat,
      Path.user (progressFileName output_file) ≠ Path.tmpChunk env.runTempDir j := by
    intro j h
    cases h
  have huserout : ∀ j : Nat, Path.user output_file ≠ Path.tmpChunk env.runTempDir j := by
    intro j h
    cases h
  have huserne : Path.user output_file ≠ Path.user (progressFileName output_file) := by
    intro h
    exact hpf (Path.user.inj h).symm
  have htklen : ((split_text_into_chunks text 2000).take i).length = i := by
    rw [List.length_take]
    omega
  have hsplit : split_text_into_chunks text 2000 =
      (split_text_into_chunks text 2000).take i ++
        (((split_text_into_chunks text 2000).getD i []) ::
          (split_text_into_chunks text 2000).drop (i + 1)) := by
    conv_lhs => rw [← List.take_append_drop i (split_text_into_chunks text 2000)]
    congr 1
    rw [List.getD_eq_getElem _ _ htotal]
    exact List.drop_eq_getElem_cons htotal
  obtain ⟨fs', heq, hreads, hframe, hprog⟩ := processLoop_ok_seg env env.runTempDir
    model_name output_file (Path.user (progressFileName output_file))
    (split_text_into_chunks text 2000).length 0 B hpfne
    ((split_text_into_chunks text 2000).take i)
    (((split_text_into_chunks text 2000).getD i []) ::
      (split_text_into_chunks text 2000).drop (i + 1))
    0 0 fs [] (le_refl 0)
    (by
      intro j ch hj
      have hjlt : j < i := by
        by_contra hge
        rw [List.get?_eq_none.mpr (by rw [htklen]; omega)] at hj
        cases hj
      have hget : (split_text_into_chunks text 2000).get? j = some ch := by
        rw [← List.get?_take hjlt]
        exact hj
      simpa using hok j ch hget hjlt)
  rw [htklen] at heq hreads hframe hprog
  simp only [Nat.zero_add] at heq hreads hframe hprog
  rw [if_pos (by omega : 0 < i)] at hprog
  have hreadfail : fsRead fs' (Path.tmpChunk env.runTempDir i) = none := by
    rw [hframe (Path.tmpChunk env.runTempDir i) ?_ (fun h => hpfne i h.symm)]
    · exact hfresh i
    · intro j hj1 hj2 hcontra
      injection hcontra with h1 h2
      omega
  have hstep2 : processChunksLoop env env.runTempDir model_name output_file
      (Path.user (progressFileName output_file)) (split_text_into_chunks text 2000).length 0
      (((split_text_into_chunks text 2000).getD i []) ::
        (split_text_into_chunks text 2000).drop (i + 1)) i i fs'
      (((List.range' 0 i).map (Path.tmpChunk env.runTempDir)).reverse ++ []) =
      (false, fs',
        (((List.range' 0 i).map (Path.tmpChunk env.runTempDir)).reverse ++ []).reverse, i) := by
    rcases hfail with hf | hf
    · simp only [processChunksLoop, if_neg (by omega : ¬ i < 0), process_text_chunk, hf]
    · simp only [processChunksLoop, if_neg (by omega : ¬ i < 0), process_text_chunk, hf,
        hreadfail]
      simp [hreadfail]
  have hloop : processChunksLoop env env.runTempDir model_name output_file
      (Path.user (progressFileName output_file)) (split_text_into_chunks text 2000).length 0
      (split_text_into_chunks text 2000) 0 0 fs [] =
      (false, fs',
        (((List.range' 0 i).map (Path.tmpChunk env.runTempDir)).reverse ++ []).reverse, i) := by
    rw [← hsplit] at heq
    rw [heq]
    exact hstep2
  have hfiles : ((((List.range' 0 i).map (Path.tmpChunk env.runTempDir)).reverse ++ []).reverse)
      = (List.range i).map (Path.tmpChunk env.runTempDir) := by
    rw [List.range_eq_range']
    simp
  simp only [text_to_audio, hdock, himg, Bool.not_true, Bool.false_eq_true, if_false,
    startValue_no_resume]
  simp only [hloop]
  refine ⟨trivial, trivial, ?_, ?_, by simpa using hfiles⟩
  · rw [fsRead_cleanup fs' env.runTempDir (Path.user (progressFileName output_file)) rfl, hprog]
  · rw [fsRead_cleanup fs' env.runTempDir (Path.user output_file) rfl]
    rw [hframe (Path.user output_file) (fun j _ _ => huserout j) huserne]
    exact hout

/-! ## A concrete five-chunk text, handled symbolically

The orchestrator hardcodes a maximum chunk size of 2000 characters, so a
multi-chunk witness needs a text of several thousand characters; the lemmas
below compute its chunking without ever evaluating the long lists. -/

/-- A ~1100-character sentence of repeated `c`s ending in a full stop. -/
def sent (c : Char) : List Char := List.replicate 1099 c ++ ['.']

/-- Five such sentences joined by single spaces: five chunks at size 2000. -/
def text5 : List Char :=
  sent 'a' ++ ' ' :: (sent 'b' ++ ' ' :: (sent 'c' ++ ' ' :: (sent 'd' ++ ' ' :: sent 'e')))

theorem sent_length (c : Char) : (sent c).length = 1100 := by
  simp [sent]

/-- The scanner walks over a block of ordinary characters, accumulating them
into the current token. -/
theorem splitAux_replicate (c : Char) (hs : isPySpace c = false) (he : isSentEnd c = false) :
    ∀ (n : Nat) (rest : List Char) (prevEnd : Bool) (tok : List Char),
      splitAux (List.replicate n c ++ rest) false prevEnd tok =
        splitAux rest false (if n = 0 then prevEnd else false) (List.replicate n c ++ tok) := by
  intro n
  induction n with
  | zero =>
    intro rest prevEnd tok
    simp
  | succ m ih =>
    intro rest prevEnd tok
    rw [List.replicate_succ, List.cons_append]
    show splitAux (c :: (List.replicate m c ++ rest)) false prevEnd tok = _
    simp only [splitAux, Bool.false_eq_true, if_false, hs, Bool.and_false, he]
    rw [ih rest false (c :: tok)]
    have htok : List.replicate m c ++ (c :: tok) = List.replicate (m + 1) c ++ tok := by
      rw [List.replicate_succ' m c]
      simp
    rw [htok]
    rcases Nat.eq_zero_or_pos m with hm | hm
    · subst hm
      simp
    · rw [if_neg (by omega), if_neg (by omega), List.replicate_succ]

/-- Reversal of the token accumulated for one sentence (entered in run
mode, so the first character was consumed separately). -/
theorem rev_dot_block (c : Char) :
    ('.' :: (List.replicate 1098 c ++ [c])).reverse = sent c := by
  rw [List.reverse_cons, List.reverse_append, List.reverse_replicate,
    show ([c] : List Char).reverse = [c] from rfl]
  rw [show ([c] : List Char) ++ List.replicate 1098 c = List.replicate 1099 c from by
    rw [show (1099 : Nat) = 1098 + 1 from rfl, List.replicate_succ]
    rfl]
  rfl

/-- Reversal of the token accumulated for the first sentence. -/
theorem rev_dot_block' (c : Char) :
    ('.' :: (List.replicate 1099 c ++ [])).reverse = sent c := by
  rw [List.reverse_cons, List.append_nil, List.reverse_replicate]
  rfl

/-- One scanner step: entering the text of a new sentence while in run mode. -/
theorem splitAux_exit_run (c : Char) (hs : isPySpace c = false) (L : List Char) :
    splitAux (c :: L) true false [] = splitAux L false (isSentEnd c) [c] := by
  show (if isPySpace c = true then splitAux L true false []
    else splitAux L false (isSentEnd c) [c]) = splitAux L false (isSentEnd c) [c]
  rw [hs, if_neg (by decide)]

/-- One scanner step over the full stop. -/
theorem splitAux_dot (T tok : List Char) :
    splitAux ('.' :: ' ' :: T) false false tok =
      splitAux (' ' :: T) false true ('.' :: tok) := rfl

/-- One scanner step over the sentence-ending space: the token is emitted. -/
theorem splitAux_emit (T tok : List Char) :
    splitAux (' ' :: T) false true tok = tok.reverse :: splitAux T true false [] := rfl

/-- Scanner termination on a final full stop. -/
theorem splitAux_dot_eof (tok : List Char) :
    splitAux ['.'] false false tok = [('.' :: tok).reverse] := rfl

/-- Entry step: scanning a sentence followed by a space emits the sentence. -/
theorem splitAux_sent_start (c : Char) (hs : isPySpace c = false) (he : isSentEnd c = false)
    (T : List Char) :
    splitAux (sent c ++ ' ' :: T) false false [] = sent c :: splitAux T true false [] := by
  have hshape : sent c ++ ' ' :: T = List.replicate 1099 c ++ ('.' :: ' ' :: T) := by
    simp [sent]
  rw [hshape, splitAux_replicate c hs he 1099 ('.' :: ' ' :: T) false []]
  rw [if_neg (by omega)]
  rw [splitAux_dot, splitAux_emit, rev_dot_block' c]

/-- Mid step: same, but entered while consuming a whitespace run. -/
theorem splitAux_sent_mid (c : Char) (hs : isPySpace c = false) (he : isSentEnd c = false)
    (T : List Char) :
    splitAux (sent c ++ ' ' :: T) true false [] = sent c :: splitAux T true false [] := by
  have hshape : sent c ++ ' ' :: T =
      c :: (List.replicate 1098 c ++ ('.' :: ' ' :: T)) := by
    show (List.replicate 1099 c ++ ['.']) ++ ' ' :: T = _
    rw [show (1099 : Nat) = 1098 + 1 from rfl, List.replicate_succ]
    simp
  rw [hshape]
  rw [splitAux_exit_run c hs]
  rw [splitAux_replicate c hs he 1098 ('.' :: ' ' :: T) (isSentEnd c) [c]]
  rw [if_neg (by omega)]
  rw [splitAux_dot, splitAux_emit, rev_dot_block c]

/-- Final step: the last sentence closes the token list. -/
theorem splitAux_sent_end (c : Char) (hs : isPySpace c = false) (he : isSentEnd c = false) :
    splitAux (sent c) true false [] = [sent c] := by
  have hshape : sent c = c :: (List.replicate 1098 c ++ ['.']) := by
    show List.replicate 1099 c ++ ['.'] = _
    rw [show (1099 : Nat) = 1098 + 1 from rfl, List.replicate_succ]
    simp
  rw [hshape]
  rw [splitAux_exit_run c hs]
  rw [splitAux_replicate c hs he 1098 ['.'] (isSentEnd c) [c]]
  rw [if_neg (by omega)]
  rw [splitAux_dot_eof, rev_dot_block c]
  rw [← hshape]

theorem splitSentences_text5 :
    splitSentences text5 = [sent 'a', sent 'b', sent 'c', sent 'd', sent 'e'] := by
  unfold splitSentences text5
  rw [splitAux_sent_start 'a' rfl rfl, splitAux_sent_mid 'b' rfl rfl,
    splitAux_sent_mid 'c' rfl rfl, splitAux_sent_mid 'd' rfl rfl,
    splitAux_sent_end 'e' rfl rfl]

theorem rstrip_append_nonspace (x : List Char) (d : Char) (hd : isPySpace d = false) :
    rstrip (x ++ [d]) = x ++ [d] := by
  unfold rstrip
  rw [List.reverse_append]
  show (((d :: x.reverse).dropWhile isPySpace)).reverse = _
  rw [List.dropWhile_cons_of_neg (by simp [hd])]
  simp

theorem pyStrip_sent (c : Char) (hc : isPySpace c = false) : pyStrip (sent c) = sent c := by
  unfold pyStrip
  rw [show sent c = List.replicate 1099 c ++ ['.'] from rfl,
    rstrip_append_nonspace _ '.' rfl]
  unfold lstrip
  rw [show (1099 : Nat) = 1098 + 1 from rfl, List.replicate_succ, List.cons_append,
    List.dropWhile_cons_of_neg (by simp [hc])]

theorem chunks_text5 :
    split_text_into_chunks text5 2000 = [sent 'a', sent 'b', sent 'c', sent 'd', sent 'e'] := by
  unfold split_text_into_chunks
  rw [splitSentences_text5]
  have hcur : ∀ c : Char, ((sent c ++ [' ']).length) = 1101 := by
    intro c
    simp [sent_length]
  have hstep : ∀ (c d : Char) (rest : List (List Char)) (acc : List (List Char)),
      isPySpace c = false →
      chunksLoop 2000 (sent d :: rest) (sent c ++ [' ']) acc =
        chunksLoop 2000 rest (sent d ++ [' ']) (acc ++ [sent c]) := by
    intro c d rest acc hc
    show chunksLoop 2000 (sent d :: rest) (sent c ++ [' ']) acc = _
    rw [show chunksLoop 2000 (sent d :: rest) (sent c ++ [' ']) acc =
      if (sent c ++ [' ']).length + (sent d).length < 2000 then
        chunksLoop 2000 rest ((sent c ++ [' ']) ++ sent d ++ [' ']) acc
      else if (sent c ++ [' ']) = [] then chunksLoop 2000 rest (sent d ++ [' ']) acc
      else chunksLoop 2000 rest (sent d ++ [' ']) (acc ++ [pyStrip (sent c ++ [' '])]) from rfl]
    rw [if_neg (by rw [hcur, sent_length]; omega)]
    rw [if_neg (by simp)]
    rw [pyStrip_append_space, pyStrip_sent c hc]
  have hstart : chunksLoop 2000 (sent 'a' :: [sent 'b', sent 'c', sent 'd', sent 'e']) [] [] =
      chunksLoop 2000 [sent 'b', sent 'c', sent 'd', sent 'e'] (sent 'a' ++ [' ']) [] := by
    show chunksLoop 2000 (sent 'a' :: [sent 'b', sent 'c', sent 'd', sent 'e']) [] [] = _
    rw [show chunksLoop 2000 (sent 'a' :: [sent 'b', sent 'c', sent 'd', sent 'e']) [] [] =
      if ([] : List Char).length + (sent 'a').length < 2000 then
        chunksLoop 2000 [sent 'b', sent 'c', sent 'd', sent 'e'] (([] : List Char) ++ sent 'a' ++ [' ']) []
      else if ([] : List Char) = [] then
        chunksLoop 2000 [sent 'b', sent 'c', sent 'd', sent 'e'] (sent 'a' ++ [' ']) []
      else chunksLoop 2000 [sent 'b', sent 'c', sent 'd', sent 'e'] (sent 'a' ++ [' '])
        ([] ++ [pyStrip ([] : List Char)]) from rfl]
    rw [if_pos (by rw [List.length_nil, sent_length]; omega)]
    rw [List.nil_append]
  have hlast : chunksLoop 2000 ([] : List (List Char)) (sent 'e' ++ [' '])
      [sent 'a', sent 'b', sent 'c', sent 'd'] =
      [sent 'a', sent 'b', sent 'c', sent 'd', sent 'e'] := by
    show (if (sent 'e' ++ [' ']) = [] then [sent 'a', sent 'b', sent 'c', sent 'd']
      else [sent 'a', sent 'b', sent 'c', sent 'd'] ++ [pyStrip (sent 'e' ++ [' '])]) = _
    rw [if_neg (by simp), pyStrip_append_space, pyStrip_sent 'e' rfl]
    rfl
  rw [hstart, hstep 'a' 'b' _ _ rfl, hstep 'b' 'c' _ _ rfl, hstep 'c' 'd' _ _ rfl,
    hstep 'd' 'e' _ _ rfl]
  simpa using hlast

/-- Environment for the failure scenario: chunks 0 and 1 synthesise, chunk 2
exits non-zero. -/
def c5env : Env :=
  { dockerInstalled := true, dockerImageOk := true,
    synth := fun j _ => if j < 2 then SynthResult.ok (some [1, 2, 3]) else SynthResult.err,
    ffmpegOut := none, runTempDir := 0, combineTempDir := 1, now := 7 }

/-- Witness for `chunk_failure_halts`: the scenario "chunk processing fails at
index 2 of 5" — the run fails, the checkpoint records 2 of 5, no output. -/
theorem chunk_failure_halts_witness :
    (text_to_audio c5env [] text5 "out.wav" "m" false).ok = false ∧
    (text_to_audio c5env [] text5 "out.wav" "m" false).completed = 2 ∧
    fsRead (text_to_audio c5env [] text5 "out.wav" "m" false).fs
      (Path.user (progressFileName "out.wav")) =
      some (FileData.jsonVal (encodeProgress ⟨2, 5, "m", "out.wav", 7⟩)) ∧
    fsRead (text_to_audio c5env [] text5 "out.wav" "m" false).fs (Path.user "out.wav")
      = none := by
  have htot : (split_text_into_chunks text5 2000).length = 5 := by
    rw [chunks_text5]
    rfl
  obtain ⟨h1, h2, h3, h4, h5⟩ := chunk_failure_halts c5env [] text5 "out.wav" "m" 2
    (fun _ => [1, 2, 3]) rfl rfl (by omega) (by rw [htot]; omega)
    (by
      intro j ch hget hj
      show (if j < 2 then SynthResult.ok (some [1, 2, 3]) else SynthResult.err) =
        SynthResult.ok (some [1, 2, 3])
      rw [if_pos hj])
    (Or.inl rfl)
    (fun k => rfl) rfl (by decide)
  rw [htot] at h3
  exact ⟨h1, h2, h3, h4⟩

/-! ## C10: resume in a fresh process -/

/-- C10: in a fresh process, a resumed run with a matching checkpoint
recording `K > 0` completed chunks appends, for each skipped index `i < K`,
the expected segment path inside the newly created temporary directory
without creating any file there; those paths are then filtered out by the
combiner's existence check, and (on the manual concatenation path) the final
output file consists of a 44-byte header followed by exactly the audio
payloads of chunks `K` through `total - 1`. -/
theorem resume_fresh_process_drops_skipped (env : Env) (fs : FS) (text : List Char)
    (output_file model_name : String) (K : Nat) (p : ProgressData) (B : Nat → List Nat)
    (hdock : env.dockerInstalled = true) (himg : env.dockerImageOk = true)
    (hload : load_progress fs (Path.user (progressFileName output_file)) =
      some (encodeProgress p))
    (hpm : p.model_name = model_name) (hpo : p.output_file = output_file)
    (hpc : p.completed_chunks = K)
    (hK0 : 0 < K) (hKtot : K < (split_text_into_chunks text 2000).length)
    (hok : ∀ j ch, (split_text_into_chunks text 2000).get? j = some ch → K ≤ j →
      env.synth j ch = SynthResult.ok (some (B j)))
    (hB : ∀ j, K ≤ j → j < (split_text_into_chunks text 2000).length → 44 ≤ (B j).length)
    (hsum : ((List.range' K ((split_text_into_chunks text 2000).length - K)).map
      (fun j => (B j).length - 44)).sum + 36 < 2 ^ 32)
    (henv : env.ffmpegOut = none)
    (htmp : env.runTempDir ≠ env.combineTempDir)
    (hfresh : ∀ k : Nat, fsRead fs (Path.tmpChunk env.runTempDir k) = none)
    (hpf : progressFileName output_file ≠ output_file) :
    (text_to_audio env fs text output_file model_name true).ok = true ∧
    (text_to_audio env fs text output_file model_name true).chunkFiles =
      (List.range (split_text_into_chunks text 2000).length).map
        (Path.tmpChunk env.runTempDir) ∧
    (∃ fs1, processChunksLoop env env.runTempDir model_name output_file
        (Path.user (progressFileName output_file)) (split_text_into_chunks text 2000).length K
        (split_text_into_chunks text 2000) 0 K fs [] =
        (true, fs1, (List.range (split_text_into_chunks text 2000).length).map
          (Path.tmpChunk env.runTempDir), (split_text_into_chunks text 2000).length) ∧
      validFiles fs1 ((List.range (split_text_into_chunks text 2000).length).map
          (Path.tmpChunk env.runTempDir)) =
        (List.range' K ((split_text_into_chunks text 2000).length - K)).map
          (Path.tmpChunk env.runTempDir)) ∧
    (∃ hdr, hdr.length = 44 ∧
      fsRead (text_to_audio env fs text output_file model_name true).fs
        (Path.user output_file) = some (FileData.bytes (hdr ++
          ((List.range' K ((split_text_into_chunks text 2000).length - K)).map
            (fun j => (B j).drop 44)).flatten))) := by
  have hpfne : ∀ j : Nat,
      Path.user (progressFileName output_file) ≠ Path.tmpChunk env.runTempDir j := by
    intro j h
    cases h
  have huserne : Path.user output_file ≠ Path.user (progressFileName output_file) := by
    intro h
    exact hpf (Path.user.inj h).symm
  set chunks := split_text_into_chunks text 2000 with hchunks
  set total := chunks.length with htotal
  set rtmp := env.runTempDir with hrtmp
  set pfp := Path.user (progressFileName output_file) with hpfp
  -- start index
  have hstart : (computeStartValue fs pfp model_name output_file true).bind startIndexOf =
      Except.ok K := by
    have h := computeStartValue_record fs pfp model_name output_file p hload hpm hpo
    rw [hpc] at h
    exact h
  -- skip phase
  have hskip := processLoop_skip env rtmp model_name output_file pfp total K K chunks 0 K fs []
    (by omega) (by omega)
  -- success phase over the remaining chunks
  obtain ⟨fs1, heq, hreads, hframe, hprog⟩ := processLoop_ok_seg env rtmp model_name output_file
    pfp total K B hpfne (chunks.drop K) [] K K fs
    (((List.range' 0 K).map (Path.tmpChunk rtmp)).reverse ++ []) (le_refl K)
    (by
      intro j ch hj
      have hget : chunks.get? (K + j) = some ch := by
        rw [← List.get?_drop]
        exact hj
      exact hok (K + j) ch hget (by omega))
  rw [List.append_nil] at heq
  have hdroplen : (chunks.drop K).length = total - K := by
    rw [List.length_drop]
  rw [hdroplen] at heq hreads hframe hprog
  rw [if_pos (by omega : 0 < total - K)] at hprog
  -- the full chunk-files list
  have hfull : (List.range' 0 K).map (Path.tmpChunk rtmp) ++
      (List.range' K (total - K)).map (Path.tmpChunk rtmp) =
      (List.range total).map (Path.tmpChunk rtmp) := by
    rw [← List.map_append]
    congr 1
    have h0 : List.range' 0 K ++ List.range' (0 + K) (total - K) =
        List.range' 0 ((total - K) + K) := List.range'_append_1 0 K (total - K)
    rw [Nat.zero_add] at h0
    rw [h0, show (total - K) + K = total from by omega, List.range_eq_range']
  have haccrev : ((((List.range' K (total - K)).map (Path.tmpChunk rtmp)).reverse ++
      (((List.range' 0 K).map (Path.tmpChunk rtmp)).reverse ++ []))).reverse =
      (List.range total).map (Path.tmpChunk rtmp) := by
    rw [List.reverse_append]
    simp [hfull]
  have hnil : processChunksLoop env rtmp model_name output_file pfp total K []
      (K + (total - K)) (K + (total - K)) fs1
      (((List.range' K (total - K)).map (Path.tmpChunk rtmp)).reverse ++
        (((List.range' 0 K).map (Path.tmpChunk rtmp)).reverse ++ [])) =
      (true, fs1,
        ((((List.range' K (total - K)).map (Path.tmpChunk rtmp)).reverse ++
          (((List.range' 0 K).map (Path.tmpChunk rtmp)).reverse ++ []))).reverse,
        K + (total - K)) := rfl
  have hloop : processChunksLoop env rtmp model_name output_file pfp total K chunks 0 K fs [] =
      (true, fs1, (List.range total).map (Path.tmpChunk rtmp), total) := by
    rw [hskip, heq, hnil, haccrev, show K + (total - K) = total from by omega]
  -- the combiner's filter drops the skipped paths
  have hvalid : validFiles fs1 ((List.range total).map (Path.tmpChunk rtmp)) =
      (List.range' K (total - K)).map (Path.tmpChunk rtmp) := by
    rw [← hfull]
    unfold validFiles
    rw [List.filter_append]
    have h1 : ((List.range' 0 K).map (Path.tmpChunk rtmp)).filter (fun p =>
        match fsRead fs1 p with
        | some d => decide (0 < fileSize d)
        | none => false) = [] := by
      rw [List.filter_eq_nil]
      intro q hq
      obtain ⟨i, hi, rfl⟩ := List.mem_map.mp hq
      have hi2 : i < K := by
        have := (List.mem_range'_1).mp hi
        omega
      have hnone : fsRead fs1 (Path.tmpChunk rtmp i) = none := by
        rw [hframe (Path.tmpChunk rtmp i) ?_ (fun h => hpfne i h.symm)]
        · exact hfresh i
        · intro j hj1 hj2 hcontra
          injection hcontra with ha hb
          omega
      rw [hnone]
      simp
    have h2 : ((List.range' K (total - K)).map (Path.tmpChunk rtmp)).filter (fun p =>
        match fsRead fs1 p with
        | some d => decide (0 < fileSize d)
        | none => false) = (List.range' K (total - K)).map (Path.tmpChunk rtmp) := by
      rw [List.filter_eq_self]
      intro q hq
      obtain ⟨j, hj, rfl⟩ := List.mem_map.mp hq
      have hj2 : K ≤ j ∧ j < total := by
        have := (List.mem_range'_1).mp hj
        omega
      rw [hreads j hj2.1 (by omega)]
      have h44 := hB j hj2.1 hj2.2
      simp only [fileSize]
      rw [decide_eq_true_eq]
      omega
    rw [h1, h2, List.nil_append]
  -- the manual combiner over the surviving segments
  have hcons : List.range' K (total - K) = K :: List.range' (K + 1) (total - K - 1) := by
    rw [show total - K = (total - K - 1) + 1 from by omega]
    exact List.range'_succ K (total - K - 1) 1
  have hvalid2 : validFiles fs1 ((List.range total).map (Path.tmpChunk rtmp)) =
      Path.tmpChunk rtmp K ::
        (List.range' (K + 1) (total - K - 1)).map (Path.tmpChunk rtmp) := by
    rw [hvalid, hcons, List.map_cons]
  have hmemrange : ∀ q, q ∈ Path.tmpChunk rtmp K ::
      (List.range' (K + 1) (total - K - 1)).map (Path.tmpChunk rtmp) →
      ∃ j, K ≤ j ∧ j < total ∧ q = Path.tmpChunk rtmp j := by
    intro q hq
    rw [← List.map_cons, ← hcons] at hq
    obtain ⟨j, hj, rfl⟩ := List.mem_map.mp hq
    have := (List.mem_range'_1).mp hj
    exact ⟨j, by omega, by omega, rfl⟩
  obtain ⟨hc1, hc2, hc3⟩ := combine_manual_spec env fs1
    ((List.range total).map (Path.tmpChunk rtmp)) (Path.user output_file)
    (fun q => match q with
      | Path.tmpChunk _ j => B j
      | _ => [])
    (Path.tmpChunk rtmp K) ((List.range' (K + 1) (total - K - 1)).map (Path.tmpChunk rtmp))
    hvalid2 henv
    (by
      intro q hq
      obtain ⟨j, hj1, hj2, rfl⟩ := hmemrange q hq
      exact hreads j hj1 (by omega))
    (by
      intro q hq
      obtain ⟨j, hj1, hj2, rfl⟩ := hmemrange q hq
      exact hB j hj1 hj2)
    (by
      rw [← List.map_cons, ← hcons, List.map_map]
      exact hsum)
    (by
      intro q hq
      obtain ⟨j, hj1, hj2, rfl⟩ := hmemrange q hq
      show (rtmp == env.combineTempDir) = false
      exact beq_eq_false_iff_ne.mpr htmp)
    rfl
  have hpay : ((Path.tmpChunk rtmp K ::
      (List.range' (K + 1) (total - K - 1)).map (Path.tmpChunk rtmp)).map (fun q =>
        (match q with
          | Path.tmpChunk _ j => B j
          | _ => []).drop 44)) =
      (List.range' K (total - K)).map (fun j => (B j).drop 44) := by
    rw [← List.map_cons, ← hcons, List.map_map]
    rfl
  rw [hpay] at hc2
  -- assemble the run
  simp only [text_to_audio, hdock, himg, Bool.not_true, Bool.false_eq_true, if_false, hstart]
  simp only [← hchunks, ← htotal, ← hrtmp, ← hpfp, hloop]
  simp only [hc1, Bool.not_true, Bool.false_eq_true, if_false]
  refine ⟨trivial, trivial, ⟨fs1, rfl, hvalid⟩, ?_⟩
  refine ⟨patchedHeader ((match (Path.tmpChunk rtmp K : Path) with
    | Path.tmpChunk _ j => B j
    | _ => []).take 44)
    (((Path.tmpChunk rtmp K ::
      (List.range' (K + 1) (total - K - 1)).map (Path.tmpChunk rtmp)).map (fun q =>
        (match q with
          | Path.tmpChunk _ j => B j
          | _ => []).length - 44)).sum), ?_, ?_⟩
  · refine patchedHeader_length _ ?_ _
    show ((B K).take 44).length = 44
    rw [List.length_take]
    have := hB K (le_refl K) (by omega)
    omega
  · rw [fsRead_cleanup _ rtmp (Path.user output_file) rfl,
      fsRead_remove_ne _ _ _ huserne]
    exact hc2

/-- Environment for a fresh-process resume: every chunk synthesises to a
45-byte file (44-byte header plus one payload byte equal to the index). -/
def c10env : Env :=
  { dockerInstalled := true, dockerImageOk := true,
    synth := fun j _ => SynthResult.ok (some (List.range 44 ++ [j])),
    ffmpegOut := none, runTempDir := 0, combineTempDir := 1, now := 3 }

/-- A checkpoint recording 1 of 5 chunks completed for `out.wav`. -/
def c10fs : FS :=
  [(Path.user "out_progress.json",
    FileData.jsonVal (encodeProgress ⟨1, 5, "m", "out.wav", 99⟩))]

/-- Witness for `resume_fresh_process_drops_skipped` on the five-chunk text
with one chunk already checkpointed. -/
theorem resume_fresh_process_drops_skipped_witness :
    (text_to_audio c10env c10fs text5 "out.wav" "m" true).ok = true ∧
    (text_to_audio c10env c10fs text5 "out.wav" "m" true).chunkFiles =
      (List.range (split_text_into_chunks text5 2000).length).map (Path.tmpChunk 0) ∧
    (∃ fs1, processChunksLoop c10env 0 "m" "out.wav" (Path.user (progressFileName "out.wav"))
        (split_text_into_chunks text5 2000).length 1 (split_text_into_chunks text5 2000)
        0 1 c10fs [] =
        (true, fs1,
          (List.range (split_text_into_chunks text5 2000).length).map (Path.tmpChunk 0),
          (split_text_into_chunks text5 2000).length) ∧
      validFiles fs1
          ((List.range (split_text_into_chunks text5 2000).length).map (Path.tmpChunk 0)) =
        (List.range' 1 ((split_text_into_chunks text5 2000).length - 1)).map
          (Path.tmpChunk 0)) ∧
    (∃ hdr, hdr.length = 44 ∧
      fsRead (text_to_audio c10env c10fs text5 "out.wav" "m" true).fs (Path.user "out.wav") =
        some (FileData.bytes (hdr ++
          ((List.range' 1 ((split_text_into_chunks text5 2000).length - 1)).map
            (fun j => (List.range 44 ++ [j]).drop 44)).flatten))) :=
  resume_fresh_process_drops_skipped c10env c10fs text5 "out.wav" "m" 1
    ⟨1, 5, "m", "out.wav", 99⟩ (fun j => List.range 44 ++ [j])
    rfl rfl rfl rfl rfl rfl (by omega)
    (by rw [chunks_text5]; decide)
    (fun j ch _ _ => rfl)
    (by intro j h1 h2; simp)
    (by rw [show (split_text_into_chunks text5 2000).length = 5 from by rw [chunks_text5]; rfl]
        decide)
    rfl (by decide) (fun k => rfl) (by decide)

end PiperSpeech
